import Mathlib

/-!
Verification development for the influxdb storage-engine write cache and the
cross-component deletion orchestrator (`Engine.DeletePrefixRange`).

The deletion orchestrator is embedded from `src/unnamed/part_008`
(`Engine.DeletePrefixRange`).  The cache itself (`tsm1.Cache`, `entry`, the
WAL `CacheLoader`) is repository code that is not present under `src/` — only
its test file `src/tsdb/tsm1/cache_test.go` is — so those parts are modelled
from the specification, with the exact numeric behaviour (value sizes, size
accounting, the memory-ceiling check) pinned down by the assertions of the
in-repository test file.  Byte-string keys are modelled as `String`
(the tests use ASCII keys, for which character length equals byte length);
`int64` timestamps are modelled as `Int` with the explicit bounds
`int64Min`/`int64Max`; `uint64` sizes are modelled as `Nat` (cache sizes are
sums of small positive quantities, so no wrap-around arises).
-/

/-- Smallest value of a Go `int64`. -/
def int64Min : Int := -(2 ^ 63)

/-- Largest value of a Go `int64`. -/
def int64Max : Int := 2 ^ 63 - 1

/-- The five scalar types a series-field key can carry
(`float64`, `int64`, `uint64`, `bool`, `string`). -/
inductive ValueType where
  | float
  | int
  | uint
  | boolean
  | str
deriving Repr, DecidableEq

/-- Modelled from the spec: the payload of a stored point, a closed union over
the five scalar types.  The cache never computes with a `float64` payload, so
it is carried as its IEEE-754 bit pattern. -/
inductive Payload where
  | float (bits : Nat)
  | int (v : Int)
  | uint (v : Nat)
  | boolean (b : Bool)
  | str (s : String)
deriving Repr, DecidableEq

/-- The scalar type of a payload. -/
def Payload.vtype : Payload → ValueType
  | .float _ => .float
  | .int _ => .int
  | .uint _ => .uint
  | .boolean _ => .boolean
  | .str _ => .str

/-- Modelled from the spec: a `Value` is one (timestamp, typed payload) pair.
`unixnano` is a Go `int64`. -/
structure Value where
  unixnano : Int
  payload : Payload
deriving Repr, DecidableEq

/-- Modelled from the spec: the serialized size of a value, as charged by the
cache's size accounting.  The float size of 16 bytes (and the 3-byte per-key
overhead for the key "foo") is pinned by `TestCache_WriteMulti_Stats` and
`TestCache_Snapshot_Stats`. -/
def Value.size (v : Value) : Nat :=
  match v.payload with
  | .float _ => 16
  | .int _ => 16
  | .uint _ => 16
  | .boolean _ => 9
  | .str s => 8 + s.length

/-- Total serialized size of a list of values. -/
def valuesBytes (vs : List Value) : Nat := (vs.map Value.size).sum

/-- Insert a value into a timestamp-sorted list, in front of the first element
whose timestamp is not strictly smaller.  Used by `sortByTime`; an element
inserted by an outer call therefore lands before equal-timestamp elements that
were inserted by inner calls, which keeps the sort stable. -/
def insertByTime (v : Value) : List Value → List Value
  | [] => [v]
  | w :: ws => if w.unixnano < v.unixnano then w :: insertByTime v ws else v :: w :: ws

/-- Stable insertion sort by timestamp: append order is preserved among values
sharing a timestamp. -/
def sortByTime : List Value → List Value
  | [] => []
  | v :: vs => insertByTime v (sortByTime vs)

/-- Collapse runs of equal timestamps in a sorted list, keeping the last
element of each run (the most recently appended one, by stability of
`sortByTime`). -/
def collapse : List Value → List Value
  | [] => []
  | [v] => [v]
  | v :: w :: rest =>
      if v.unixnano = w.unixnano then collapse (w :: rest)
      else v :: collapse (w :: rest)

/-- Modelled from the spec: deduplication of a value buffer — sort by
timestamp ascending (stably) and resolve duplicate timestamps by
last-write-wins. -/
def dedupe (vs : List Value) : List Value := collapse (sortByTime vs)

/-- The values of `vs` carrying timestamp `t`, in order. -/
def filterTs (vs : List Value) (t : Int) : List Value :=
  vs.filter (fun w => w.unixnano = t)

/-- The most recently appended value of `vs` with timestamp `t`, if any. -/
def lastAt (vs : List Value) (t : Int) : Option Value :=
  (filterTs vs t).getLast?

/-- The error kinds a cache write can produce.  `capacityExceeded` carries the
size the write would have reached and the configured limit (the Go error
message names the `cache-max-memory-size` setting); `typeConflict` reports a
value whose scalar type does not match the key's established type;
`batchFailed` is the aggregate error returned by `WriteMulti`, enumerating
the keys that failed. -/
inductive WriteError where
  | capacityExceeded (n limit : Nat)
  | typeConflict
  | batchFailed (failedKeys : List String)
deriving Repr, DecidableEq

/-- True exactly on the capacity error, so that capacity failures are
distinguishable from type conflicts in caller-facing errors. -/
def isCapacityErr : Option WriteError → Bool
  | some (.capacityExceeded _ _) => true
  | _ => false

/-- Modelled from the spec: an `entry` owns the ordered value buffer for one
key together with the key's established scalar type.  Values are held in
append order; deduplication happens on read and on delete. -/
structure Entry where
  vtype : ValueType
  values : List Value
deriving Repr, DecidableEq

/-- Serialized size of an entry's buffered values. -/
def entryBytes (e : Entry) : Nat := valuesBytes e.values

/-- Modelled from the spec: `entry.add` — every value of the batch must match
the entry's established type, otherwise the whole per-key batch is rejected
with a type conflict and nothing is appended; on success all values are
appended. -/
def entryAdd (e : Entry) (vs : List Value) : Except WriteError Entry :=
  if vs.all (fun v => v.payload.vtype = e.vtype) then
    .ok { e with values := e.values ++ vs }
  else
    .error .typeConflict

/-- Modelled from the spec: `newEntryValues` — create an entry for a key's
first batch; the first value establishes the type and every other value must
match it.  An empty batch creates an empty float-typed entry (the zero type),
mirroring the zero value in Go; no claim depends on this corner. -/
def newEntryValues (vs : List Value) : Except WriteError Entry :=
  match vs with
  | [] => .ok { vtype := .float, values := [] }
  | v :: _ =>
      if vs.all (fun w => w.payload.vtype = v.payload.vtype) then
        .ok { vtype := v.payload.vtype, values := vs }
      else
        .error .typeConflict

/-- The store is a key-to-entry mapping, modelled as an association list (the
sharding by key hash only spreads lock contention and does not affect the
observable mapping). -/
abbrev Store : Type := List (String × Entry)

/-- Look a key up in a store. -/
def storeFind (st : Store) (k : String) : Option Entry :=
  (st.find? (fun p => p.1 == k)).map (·.2)

/-- Replace the entry of a key that is already present. -/
def storeUpdate (st : Store) (k : String) (e : Entry) : Store :=
  st.map (fun p => if p.1 == k then (p.1, e) else p)

/-- The per-key outcome of writing a batch: added to the existing entry when
the key is present, otherwise a fresh entry. -/
def entryOutcome (cur : Option Entry) (vs : List Value) : Except WriteError Entry :=
  match cur with
  | some e => entryAdd e vs
  | none => newEntryValues vs

/-- Modelled from the spec: `ring.write` — apply one key's batch to the store.
Returns the new store and whether the key was newly created (the caller
charges the key's byte length exactly once, on creation). -/
def storeWrite (st : Store) (k : String) (vs : List Value) :
    Except WriteError (Store × Bool) :=
  match storeFind st k with
  | some e =>
      match entryAdd e vs with
      | .ok e' => .ok (storeUpdate st k e', false)
      | .error er => .error er
  | none =>
      match newEntryValues vs with
      | .ok e' => .ok (st ++ [(k, e')], true)
      | .error er => .error er

/-- Modelled from the spec: the cache.  It owns one live store and, while a
snapshot is outstanding, one frozen snapshot store; `cacheSize` and
`snapshotSize` are the live and snapshotted byte counters
(`tracker.cacheSize` / `tracker.snapshotSize`), `memSizeBytes` and
`snapshottedBytes` the observability gauges pinned by
`TestCache_Snapshot_Stats`, and `writesDropped` / `writesErr` the distinct
drop/error counters pinned by `TestCache_WriteMulti_Stats`. -/
structure Cache where
  maxSize : Nat
  store : Store
  snapshotStore : Option Store
  cacheSize : Nat
  snapshotSize : Nat
  memSizeBytes : Nat
  snapshottedBytes : Nat
  writesDropped : Nat
  writesErr : Nat
deriving DecidableEq

/-- Modelled from the spec: `NewCache` — a fresh cache with the given memory
ceiling, an empty live store and no outstanding snapshot. -/
def newCache (maxSize : Nat) : Cache :=
  { maxSize := maxSize, store := [], snapshotStore := none, cacheSize := 0,
    snapshotSize := 0, memSizeBytes := 0, snapshottedBytes := 0,
    writesDropped := 0, writesErr := 0 }

/-- Modelled from the spec: `Cache.Size` — the live bytes plus the bytes held
by the outstanding snapshot.  That the snapshot bytes are included is pinned
by `TestCache_Snapshot_Stats` (after `Snapshot()` the reported size is
unchanged) and by `TestCache_CacheWriteMemoryExceeded` (a write is still
capacity-rejected while the snapshot holds the memory). -/
def cacheSizeOf (c : Cache) : Nat := c.cacheSize + c.snapshotSize

/-- Modelled from the spec: `Cache.Write` — compute the incremental size of
the batch, reject it with a capacity error when the configured ceiling would
be breached (the pre-check charges the values only; the key overhead is added
after the fact, which is why `TestCache_Snapshot_Stats` can see a size above
the limit), otherwise apply it to the live store, charging the key's length
when the key is new.  Returns the new cache and the error, `none` on
success. -/
def cacheWrite (c : Cache) (k : String) (vs : List Value) :
    Cache × Option WriteError :=
  let addedSize := valuesBytes vs
  let n := cacheSizeOf c + addedSize
  if 0 < c.maxSize ∧ c.maxSize < n then
    ({ c with writesErr := c.writesErr + 1,
              writesDropped := c.writesDropped + vs.length },
     some (.capacityExceeded n c.maxSize))
  else
    match storeWrite c.store k vs with
    | .error e => ({ c with writesErr := c.writesErr + 1 }, some e)
    | .ok (st', newKey) =>
        let added' := if newKey then addedSize + k.length else addedSize
        ({ c with store := st', cacheSize := c.cacheSize + added',
                  memSizeBytes := c.memSizeBytes + added' }, none)

/-- Apply each key's batch of a multi-key write to the store in order,
accumulating the bytes of the successful batches (plus key overhead for newly
created keys) and the keys whose batches failed.  Failed keys leave the store
and the byte count untouched; successful keys are preserved. -/
def multiApply (st : Store) : List (String × List Value) → Store × Nat × List String
  | [] => (st, 0, [])
  | kv :: rest =>
      match storeWrite st kv.1 kv.2 with
      | .error _ =>
          let next := multiApply st rest
          (next.1, next.2.1, kv.1 :: next.2.2)
      | .ok (st1, newKey) =>
          let next := multiApply st1 rest
          (next.1, next.2.1 + valuesBytes kv.2 + (if newKey then kv.1.length else 0),
           next.2.2)

/-- Total value bytes of a multi-key batch. -/
def batchBytes (batch : List (String × List Value)) : Nat :=
  (batch.map (fun kv => valuesBytes kv.2)).sum

/-- Modelled from the spec: `Cache.WriteMulti` — one up-front capacity check
against the whole batch's incremental size (a breach rejects the batch with a
capacity error, bumps the error counter and counts every key of the batch as
dropped, as pinned by `TestCache_WriteMulti_Stats`); otherwise each key is
applied independently, per-key failures are aggregated into one
`batchFailed` error enumerating the failed keys while successful keys stay
applied, and only the successful keys' bytes are charged. -/
def cacheWriteMulti (c : Cache) (batch : List (String × List Value)) :
    Cache × Option WriteError :=
  let addedSize := batchBytes batch
  let n := cacheSizeOf c + addedSize
  if 0 < c.maxSize ∧ c.maxSize < n then
    ({ c with writesErr := c.writesErr + 1,
              writesDropped := c.writesDropped + batch.length },
     some (.capacityExceeded n c.maxSize))
  else
    let m := multiApply c.store batch
    ({ c with store := m.1, cacheSize := c.cacheSize + m.2.1,
              memSizeBytes := c.memSizeBytes + m.2.1,
              writesErr := c.writesErr + (if m.2.2.isEmpty then 0 else 1) },
     if m.2.2.isEmpty then none else some (.batchFailed m.2.2))

/-- The raw (append-ordered, not yet deduplicated) buffered values of a key in
a store; `[]` when the key is absent. -/
def rawIn (st : Store) (k : String) : List Value :=
  ((storeFind st k).map Entry.values).getD []

/-- Modelled from the spec: `Cache.Values` — merge the snapshot store's entry
(when a snapshot is outstanding) with the live store's entry and return the
fully deduplicated, timestamp-ascending sequence.  Live values were written
after snapshotted ones, so last-write-wins gives them priority.  An
unwritten key yields the empty sequence (Go `nil`). -/
def cacheValues (c : Cache) (k : String) : List Value :=
  let snapVals := match c.snapshotStore with
    | some ss => rawIn ss k
    | none => []
  dedupe (snapVals ++ rawIn c.store k)

/-- Insert a key into a key list unless it is already present. -/
def insertKey (ks : List String) (k : String) : List String :=
  if k ∈ ks then ks else ks ++ [k]

/-- Modelled from the spec: `Cache.Keys` — all keys across the live and
snapshot stores, sorted and without duplicates. -/
def cacheKeys (c : Cache) : List String :=
  let snapKeys := match c.snapshotStore with
    | some ss => ss.map (·.1)
    | none => []
  ((snapKeys ++ c.store.map (·.1)).foldl insertKey []).mergeSort (· ≤ ·)

/-- The error returned by `Snapshot()` while another snapshot is unflushed. -/
inductive SnapshotError where
  | inProgress
deriving Repr, DecidableEq

/-- Modelled from the spec: `Cache.Snapshot` — refuse when a snapshot is
already outstanding; otherwise atomically move the live store aside as the
frozen snapshot, start a new empty live store, move the live byte counter to
the snapshot counter and add it to the `snapshottedBytes` gauge (pinned by
`TestCache_Snapshot_Stats`: `memSizeBytes` is untouched and `Size()` is
unchanged by the swap).  Returns the updated cache and the error; on error
the cache is unchanged. -/
def cacheSnapshot (c : Cache) : Cache × Option SnapshotError :=
  match c.snapshotStore with
  | some _ => (c, some .inProgress)
  | none =>
      ({ c with snapshotStore := some c.store, store := [],
                snapshotSize := c.cacheSize, cacheSize := 0,
                snapshottedBytes := c.snapshottedBytes + c.cacheSize }, none)

/-- Modelled from the spec: `Cache.ClearSnapshot` — on success the frozen
store is discarded and the snapshotted-bytes accounting is released; on
failure the frozen store is retained so the compactor can retry without data
loss. -/
def clearSnapshot (c : Cache) (success : Bool) : Cache :=
  if success then { c with snapshotStore := none, snapshotSize := 0 }
  else c

/-- Prefix test on byte-string keys (`bytes.HasPrefix`), defined over the
underlying character list so that concrete instances evaluate inside the
kernel (`String.isPrefixOf` is built on byte-position primitives that do
not reduce there). -/
def strStartsWith (p s : String) : Bool := p.data.isPrefixOf s.data

/-- An optional key predicate, the abstract capability used to scope a
deletion to a subset of the keys sharing a prefix; `none` matches every
key (the serialization half of the capability plays no role here). -/
def KeyPred : Type := Option (String → Bool)

/-- `pred == nil || pred.Matches(k)`. -/
def predOk (pred : KeyPred) (k : String) : Bool :=
  match pred with
  | none => true
  | some f => f k

/-- One step of `Cache.DeleteBucketRange` over the live store: for every key
sharing the prefix and matched by the predicate, either stage the whole entry
for removal (full time range), or deduplicate the buffer and drop the values
inside `[mn, mx]`, removing the key when nothing remains.  Returns the new
store and the freed bytes (the removed values plus the key overhead of
removed keys). -/
def dbrStore (name : String) (mn mx : Int) (pred : KeyPred) :
    Store → Store × Nat
  | [] => ([], 0)
  | kv :: rest =>
      let next := dbrStore name mn mx pred rest
      if strStartsWith name kv.1 && predOk pred kv.1 then
        if mn = int64Min ∧ mx = int64Max then
          (next.1, next.2 + entryBytes kv.2 + kv.1.length)
        else
          let vs' := (dedupe kv.2.values).filter
            (fun v => v.unixnano < mn ∨ mx < v.unixnano)
          if vs' = [] then (next.1, next.2 + entryBytes kv.2 + kv.1.length)
          else ((kv.1, { kv.2 with values := vs' }) :: next.1,
                next.2 + (entryBytes kv.2 - valuesBytes vs'))
      else (kv :: next.1, next.2)

/-- Modelled from the spec: `Cache.DeleteBucketRange` — trim every matching
live entry to remove the sub-range `[mn, mx]` (sorting and deduplicating
before slicing, so out-of-order buffers are handled), remove keys whose
entries become empty, and release the freed bytes from the live size
accounting.  The frozen snapshot store is not touched. -/
def cacheDeleteBucketRange (c : Cache) (name : String) (mn mx : Int)
    (pred : KeyPred) : Cache :=
  let r := dbrStore name mn mx pred c.store
  { c with store := r.1, cacheSize := c.cacheSize - r.2 }

/-- A write delivered to one key either through `Write` or through a
single-key `WriteMulti` batch. -/
inductive KeyOp where
  | wr (vs : List Value)
  | wrMulti (vs : List Value)

/-- Apply a sequence of single-key write operations to the cache, returning
the final cache together with the batches that were accepted (applied), in
order. -/
def applyKeyOps (c : Cache) (k : String) : List KeyOp → Cache × List (List Value)
  | [] => (c, [])
  | op :: rest =>
      let vs := match op with
        | .wr vs => vs
        | .wrMulti vs => vs
      let step := match op with
        | .wr vs => cacheWrite c k vs
        | .wrMulti vs => cacheWriteMulti c [(k, vs)]
      let next := applyKeyOps step.1 k rest
      (next.1, (if step.2.isNone then [vs] else []) ++ next.2)

/-- Apply a sequence of keyed `Write` calls, returning the final cache and
the accepted (key, batch) writes in order. -/
def applyWrites (c : Cache) : List (String × List Value) → Cache × List (String × List Value)
  | [] => (c, [])
  | kv :: rest =>
      let step := cacheWrite c kv.1 kv.2
      let next := applyWrites step.1 rest
      (next.1, (if step.2.isNone then [kv] else []) ++ next.2)

/-- The batches among the accepted writes that went to key `k`, concatenated
in order: the values written to `k` over the sequence. -/
def writtenTo (acc : List (String × List Value)) (k : String) : List Value :=
  ((acc.filter (fun kv => kv.1 == k)).map (·.2)).flatten

/-- One record of a WAL segment: either a well-formed `WriteMulti`-shaped
batch or a malformed/truncated record at which replay of the segment stops. -/
inductive WALRec where
  | writeRec (batch : List (String × List Value))
  | corruptRec

/-- A WAL segment is its sequence of records. -/
abbrev Segment : Type := List WALRec

/-- The well-formed batches preceding the first corruption of a segment. -/
def segGood : Segment → List (List (String × List Value))
  | [] => []
  | .writeRec b :: rest => b :: segGood rest
  | .corruptRec :: _ => []

/-- Replay a list of batches through the cache's normal write path, tracking
whether every write succeeded. -/
def replayBatches (c : Cache) : List (List (String × List Value)) → Cache × Bool
  | [] => (c, true)
  | b :: rest =>
      match (cacheWriteMulti c b).2 with
      | some _ => ((cacheWriteMulti c b).1, false)
      | none => replayBatches (cacheWriteMulti c b).1 rest

/-- Modelled from the spec: replay of one WAL segment — well-formed records
are applied through the normal write path (a write error aborts the load and
surfaces), and a malformed record terminates replay of this segment cleanly,
without an error. -/
def loadSegment (c : Cache) : Segment → Cache × Option WriteError
  | [] => (c, none)
  | .writeRec b :: rest =>
      match (cacheWriteMulti c b).2 with
      | some e => ((cacheWriteMulti c b).1, some e)
      | none => loadSegment (cacheWriteMulti c b).1 rest
  | .corruptRec :: _ => (c, none)

/-- Modelled from the spec: `CacheLoader.Load` — replay every segment in
order into the cache; a corrupt tail of one segment does not block the
remaining segments. -/
def loaderLoad (c : Cache) : List Segment → Cache × Option WriteError
  | [] => (c, none)
  | seg :: segs =>
      match (loadSegment c seg).2 with
      | some e => ((loadSegment c seg).1, some e)
      | none => loaderLoad (loadSegment c seg).1 segs

/-- A TSM file, through the narrow contract the deletion orchestrator
consumes: for each series-field key the timestamps of its live (not yet
tombstoned) data.  (`DeletePrefix`, its touched-key callback and the sorted
key `Iterator` are the only operations used.) -/
structure TSMFileM where
  entries : List (String × List Int)
deriving DecidableEq

/-- The keys a file's sorted iterator yields. -/
def fileKeys (f : TSMFileM) : List String := f.entries.map (·.1)

/-- `TSMFile.DeletePrefix(name, mn, mx, pred, onKeyTouched)`: tombstone the
data in `[mn, mx]` of every key sharing the prefix and matched by the
predicate; a key whose data is gone entirely disappears from the file's
iterator.  Returns the updated file. -/
def fileDeleteRange (name : String) (mn mx : Int) (pred : KeyPred)
    (f : TSMFileM) : TSMFileM :=
  ⟨f.entries.filterMap (fun kt =>
    if strStartsWith name kt.1 && predOk pred kt.1 then
      let ts' := kt.2.filter (fun t => t < mn ∨ mx < t)
      if ts' = [] then none else some (kt.1, ts')
    else some kt)⟩

/-- The keys the `onKeyTouched` callback of `DeletePrefix` reports: every
matching key that had at least one point inside the deleted range. -/
def fileTouchedKeys (name : String) (mn mx : Int) (pred : KeyPred)
    (f : TSMFileM) : List String :=
  (f.entries.filter (fun kt =>
    strStartsWith name kt.1 && predOk pred kt.1 &&
      kt.2.any (fun t => mn ≤ t && t ≤ mx))).map (·.1)

/-- The tag index, through the contract the orchestrator consumes: a set of
(measurement name, series id) pairs.  `MeasurementSeriesIDIterator` yields
the ids of one measurement, `DropMeasurement` removes the measurement's
pairs in one call, `DropSeries` removes one series id. -/
abbrev TagIndexM : Type := List (String × Nat)

/-- `index.MeasurementSeriesIDIterator(name)`: the series ids of the
measurement, in index order. -/
def measurementSeriesIDs (idx : TagIndexM) (name : String) : List Nat :=
  (idx.filter (fun p => p.1 == name)).map (·.2)

/-- `index.DropMeasurement(name)`: remove the whole measurement from the tag
index in one call. -/
def dropMeasurement (idx : TagIndexM) (name : String) : TagIndexM :=
  idx.filter (fun p => p.1 != name)

/-- `index.DropSeries(sid, key, true)`: remove one series from the tag
index. -/
def dropSeriesFromIndex (idx : TagIndexM) (sid : Nat) : TagIndexM :=
  idx.filter (fun p => p.2 != sid)

/-- The series catalog (series file), through the contract the orchestrator
consumes: (series id, series key) pairs.  Id 0 plays the role of the zero
`tsdb.SeriesID`, meaning "not found". -/
abbrev SeriesFileM : Type := List (Nat × String)

/-- `sfile.SeriesID(name, tags, buf)`: the id of a series key, 0 when the
series is unknown.  The model keys the catalog by the series key directly
(`models.ParseKeyBytes` and the name/tags round-trip are external parsing
code consumed by the orchestrator). -/
def seriesIDLookup (sf : SeriesFileM) (skey : String) : Nat :=
  ((sf.find? (fun p => p.2 == skey)).map (·.1)).getD 0

/-- `sfile.DeleteSeriesID(id)`: remove one series from the catalog. -/
def deleteSeriesID (sf : SeriesFileM) (sid : Nat) : SeriesFileM :=
  sf.filter (fun p => p.1 != sid)

/-- Characters of a composite key before the `keyFieldSeparator` "#!~#"
(all of them when the separator is absent). -/
def seriesKeyChars : List Char → List Char
  | [] => []
  | c :: rest =>
      if List.isPrefixOf "#!~#".data (c :: rest) then []
      else c :: seriesKeyChars rest

/-- `SeriesAndFieldFromCompositeKey`: the series-key half of a composite
cache/TSM key; the composite key is the series key followed by the
`keyFieldSeparator` "#!~#" and the field key.  Implemented over the
character list so that concrete instances evaluate inside the kernel. -/
def seriesKeyOf (k : String) : String := ⟨seriesKeyChars k.data⟩

/-- The engine state the deletion orchestrator touches: the on-disk file
set, the cache, the tag index and the series catalog.  (Compaction
enable/disable and locking are concurrency control with no effect on the
final state and are not part of the state model.) -/
structure EngineM where
  files : List TSMFileM
  cache : Cache
  index : TagIndexM
  sfile : SeriesFileM
deriving DecidableEq

/-- src/unnamed/part_008 lines 76-89: run the per-file delete and collect
every key any file's `onKeyTouched` callback reported into the possibly-dead
candidate set. -/
def dprTouched (e : EngineM) (name : String) (mn mx : Int) (pred : KeyPred) :
    List String :=
  (e.files.map (fileTouchedKeys name mn mx pred)).flatten

/-- src/unnamed/part_008 lines 94-114: scan the cache for every key under
the prefix matching the predicate; each one is also a possibly-dead
candidate, because it may exist in the index but not yet on disk.
(`Cache.ApplyEntryFn` iterates the live store.) -/
def dprCacheCand (e : EngineM) (name : String) (pred : KeyPred) : List String :=
  (e.cache.store.map (·.1)).filter (fun k => strStartsWith name k && predOk pred k)

/-- The full possibly-dead candidate set (a Go `map[string]struct` — each key
appears once). -/
def dprCandidates (e : EngineM) (name : String) (mn mx : Int) (pred : KeyPred) :
    List String :=
  (dprTouched e name mn mx pred ++ dprCacheCand e name pred).foldl insertKey []

/-- The on-disk file set after the per-file `DeletePrefix` pass. -/
def dprFilesAfter (e : EngineM) (name : String) (mn mx : Int) (pred : KeyPred) :
    List TSMFileM :=
  e.files.map (fileDeleteRange name mn mx pred)

/-- src/unnamed/part_008 line 122: the cache after
`Cache.DeleteBucketRange`. -/
def dprCacheAfter (e : EngineM) (name : String) (mn mx : Int) (pred : KeyPred) :
    Cache :=
  cacheDeleteBucketRange e.cache name mn mx pred

/-- src/unnamed/part_008 lines 126-163: the file re-scan removes a candidate
from the possibly-dead set when some file's iterator still yields it under
the prefix (keys not matching the predicate are skipped) — it is provably
still alive.  This predicate says whether a key is removed by that pass. -/
def dprPrunedByFiles (e : EngineM) (name : String) (mn mx : Int) (pred : KeyPred)
    (k : String) : Bool :=
  (dprFilesAfter e name mn mx pred).any (fun f =>
    (fileKeys f).contains k && strStartsWith name k && predOk pred k)

/-- src/unnamed/part_008 lines 166-181: the cache re-scan removes a candidate
from the possibly-dead set when the pruned cache still holds it under the
prefix with the predicate matching. -/
def dprPrunedByCache (e : EngineM) (name : String) (mn mx : Int) (pred : KeyPred)
    (k : String) : Bool :=
  ((dprCacheAfter e name mn mx pred).store.map (·.1)).contains k &&
    strStartsWith name k && predOk pred k

/-- Whatever remains in the possibly-dead set after both pruning passes:
these keys are truly dead. -/
def dprDead (e : EngineM) (name : String) (mn mx : Int) (pred : KeyPred) :
    List String :=
  (dprCandidates e name mn mx pred).filter (fun k =>
    !(dprPrunedByFiles e name mn mx pred k) && !(dprPrunedByCache e name mn mx pred k))

/-- `MeasurementSeriesIDIterator.Next`: the next element and an error.  Index
iteration over an open in-memory index does not fail, so the returned error
is always `none`; a zero series id signals exhaustion. -/
def sidNext : List Nat → Nat × Option String × List Nat
  | [] => (0, none, [])
  | x :: xs => (x, none, xs)

/-- src/unnamed/part_008 lines 204-211, translated loop for loop: the
series-id set is built by
`for elem, err = itr.Next(); err != nil; elem, err = itr.Next()` — the body
runs only while `Next` RETURNS an error (`err != nil`), breaking on a zero
id; when `Next` succeeds the condition fails and the loop exits at once with
the error it last saw (`none`).  Returns the accumulated set and the error
observed when the loop finished. -/
def sidDrain (fuel : Nat) (itr : List Nat) (set : List Nat) :
    List Nat × Option String :=
  match fuel with
  | 0 => (set, none)
  | fuel' + 1 =>
      let (elem, err, itr') := sidNext itr
      match err with
      | none => (set, none)
      | some er =>
          if elem = 0 then (set, some er)
          else sidDrain fuel' itr' (set ++ [elem])

/-- src/unnamed/part_008 lines 240-258, the slow path: for each remaining
dead key, resolve its series id from the catalog via the series-key half of
the composite key (`SeriesAndFieldFromCompositeKey` + `ParseKeyBytes`),
skip unknown series (zero id), and drop the series from the tag index and
then from the series catalog. -/
def slowPathDrop : TagIndexM × SeriesFileM → List String → TagIndexM × SeriesFileM
  | is, [] => is
  | (idx, sf), k :: rest =>
      let sid := seriesIDLookup sf (seriesKeyOf k)
      if sid = 0 then slowPathDrop (idx, sf) rest
      else slowPathDrop (dropSeriesFromIndex idx sid, deleteSeriesID sf sid) rest

/-- Embedding of `Engine.DeletePrefixRange` (src/unnamed/part_008 lines
19-263).  Per-file deletes collect possibly-dead candidates; the cache scan
adds its matching keys; the cache range is deleted; both pruning passes
remove candidates still present in a file or in the cache; if candidates
remain, a full-range predicate-free delete takes the fast path (drain the
measurement's series-id iterator, drop the measurement from the index in one
call, and delete the drained ids from the series catalog), otherwise each
dead key is dropped individually.  The suspension and resumption of index,
TSM and series-file compactions brackets the operation and has no effect on
the resulting state.  (`models.UnescapeMeasurement` is the identity on the
unescaped measurement names used here, and the query-language
`influxql.MinTime`/`MaxTime` clamping is outside the model: callers pass the
engine-native `int64` bounds.) -/
def deletePrefixRange (e : EngineM) (name : String) (mn mx : Int)
    (pred : KeyPred) : EngineM × Option String :=
  let filesAfter := dprFilesAfter e name mn mx pred
  let cacheAfter := dprCacheAfter e name mn mx pred
  let dead := dprDead e name mn mx pred
  if dead.isEmpty then
    ({ files := filesAfter, cache := cacheAfter, index := e.index, sfile := e.sfile }, none)
  else if mn = int64Min ∧ mx = int64Max ∧ pred.isNone then
    let itr := measurementSeriesIDs e.index name
    let (set, errLoop) := sidDrain (itr.length + 1) itr []
    match errLoop with
    | some er =>
        ({ files := filesAfter, cache := cacheAfter, index := e.index, sfile := e.sfile },
         some er)
    | none =>
        ({ files := filesAfter, cache := cacheAfter,
           index := dropMeasurement e.index name,
           sfile := set.foldl deleteSeriesID e.sfile }, none)
  else
    ({ files := filesAfter, cache := cacheAfter,
       index := (slowPathDrop (e.index, e.sfile) dead).1,
       sfile := (slowPathDrop (e.index, e.sfile) dead).2 }, none)

/-- The bytes a store accounts for: each entry's buffered values plus the
key's overhead. -/
def storeBytes (st : Store) : Nat :=
  (st.map (fun kv => entryBytes kv.2 + kv.1.length)).sum

/-- The keys an aggregate write error reports as failed (`PartialWriteError`
enumerates them; other errors name no per-key failures). -/
def failedKeysOf : Option WriteError → List String
  | some (.batchFailed ks) => ks
  | _ => []

/-- The bytes a multi-key batch is predicted to add against a given store:
each key contributes its values' bytes (plus key overhead when new) when its
per-key outcome succeeds, and nothing when it fails. -/
def multiPredictedBytes (st : Store) (batch : List (String × List Value)) : Nat :=
  (batch.map (fun kv =>
    match entryOutcome (storeFind st kv.1) kv.2 with
    | .ok _ => valuesBytes kv.2 + (if (storeFind st kv.1).isNone then kv.1.length else 0)
    | .error _ => 0)).sum

/-- C9 witness scenario: two segments, the first corrupted after one valid
record (mirroring `TestCacheLoader_LoadDouble`). -/
def c9segs : List Segment :=
  [[.writeRec [("foo", [⟨1, .float 70⟩]), ("bar", [⟨1, .int 1⟩])], .corruptRec],
   [.writeRec [("baz", [⟨1, .boolean true⟩]), ("qux", [⟨1, .str "string"⟩])]]]

/-- C3 witness engine: one TSM file with three keys under two measurements,
one cache-resident point, and a catalog/index of three series.  The delete
covers `[2, 7]` (not the full range), so the slow path runs: the key
`cpu,host=a#!~#v` is touched but survives in the file and is pruned, while
`cpu,host=b#!~#v` loses all its data everywhere and is dropped. -/
def c3eng : EngineM :=
  { files := [⟨[("cpu,host=a#!~#v", [1, 5, 9]), ("cpu,host=b#!~#v", [2, 3]),
                ("mem,host=a#!~#v", [4])]⟩]
  , cache := (applyWrites (newCache 0) [("cpu,host=b#!~#v", [⟨7, .float 1⟩])]).1
  , index := [("cpu", 1), ("cpu", 2), ("mem", 3)]
  , sfile := [(1, "cpu,host=a"), (2, "cpu,host=b"), (3, "mem,host=a")] }

/-- C1 failing-input engine, shaped like `TestEngine_DeleteBucket`: the
"cpu" measurement has series-field keys resident in the cache (nothing on
disk yet), the tag index lists series ids 1 and 2 for "cpu" and id 3 for
"mem", and the series catalog holds all three series. -/
def c1eng : EngineM :=
  { files := []
  , cache := (applyWrites (newCache 0)
      [("cpu,host=a#!~#value", [⟨1, .float 1⟩]),
       ("cpu,host=b#!~#value", [⟨1, .float 1⟩]),
       ("cpu,host=b#!~#value2", [⟨1, .float 2⟩]),
       ("mem,host=a#!~#value", [⟨1, .float 1⟩])]).1
  , index := [("cpu", 1), ("cpu", 2), ("mem", 3)]
  , sfile := [(1, "cpu,host=a"), (2, "cpu,host=b"), (3, "mem,host=a")] }

/-- Strict timestamp order between values. -/
def tsLt (a b : Value) : Prop := a.unixnano < b.unixnano

/-- Loose timestamp order between values. -/
def tsLe (a b : Value) : Prop := a.unixnano ≤ b.unixnano

theorem filterTs_nil (t : Int) : filterTs [] t = [] := rfl

theorem filterTs_cons (v : Value) (l : List Value) (t : Int) :
    filterTs (v :: l) t =
      if v.unixnano = t then v :: filterTs l t else filterTs l t := by
  simp only [filterTs, List.filter_cons]
  by_cases h : v.unixnano = t
  · simp [h]
  · simp [h]

theorem insertByTime_perm (v : Value) (l : List Value) :
    List.Perm (insertByTime v l) (v :: l) := by
  induction l with
  | nil => simp [insertByTime]
  | cons w ws ih =>
      simp only [insertByTime]
      split
      · exact ((ih.cons w).trans (List.Perm.swap v w ws))
      · exact List.Perm.refl _

theorem sortByTime_perm (vs : List Value) : List.Perm (sortByTime vs) vs := by
  induction vs with
  | nil => simp [sortByTime]
  | cons v vs ih => exact (insertByTime_perm v (sortByTime vs)).trans (ih.cons v)

theorem filterTs_insertByTime (v : Value) (l : List Value) (t : Int) :
    filterTs (insertByTime v l) t = filterTs (v :: l) t := by
  induction l with
  | nil => simp [insertByTime]
  | cons w ws ih =>
      simp only [insertByTime]
      split
      · next hlt =>
          rw [filterTs_cons, ih, filterTs_cons, filterTs_cons, filterTs_cons]
          by_cases hv : v.unixnano = t
          · by_cases hw : w.unixnano = t
            · omega
            · simp [hv, hw]
          · by_cases hw : w.unixnano = t
            · simp [hv, hw]
            · simp [hv, hw]
      · rfl

theorem filterTs_sortByTime (vs : List Value) (t : Int) :
    filterTs (sortByTime vs) t = filterTs vs t := by
  induction vs with
  | nil => rfl
  | cons v vs ih =>
      simp only [sortByTime]
      rw [filterTs_insertByTime, filterTs_cons, filterTs_cons, ih]

theorem pairwise_insertByTime (v : Value) (l : List Value)
    (h : l.Pairwise tsLe) : (insertByTime v l).Pairwise tsLe := by
  induction l with
  | nil => simp [insertByTime, tsLe]
  | cons w ws ih =>
      simp only [insertByTime]
      rcases List.pairwise_cons.mp h with ⟨hw, hws⟩
      split
      · next hlt =>
          refine List.pairwise_cons.mpr ⟨?_, ih hws⟩
          intro u hu
          rcases List.mem_cons.mp ((insertByTime_perm v ws).mem_iff.mp hu) with hv | hmem
          · subst hv; exact le_of_lt hlt
          · exact hw u hmem
      · next hge =>
          refine List.pairwise_cons.mpr ⟨?_, h⟩
          intro u hu
          rcases List.mem_cons.mp hu with hv | hmem
          · subst hv; exact le_of_not_lt hge
          · exact le_trans (le_of_not_lt hge) (hw u hmem)

theorem pairwise_sortByTime (vs : List Value) : (sortByTime vs).Pairwise tsLe := by
  induction vs with
  | nil => simp [sortByTime]
  | cons v vs ih => exact pairwise_insertByTime v (sortByTime vs) ih

theorem collapse_sublist (l : List Value) : List.Sublist (collapse l) l := by
  induction l using collapse.induct with
  | case1 => simp [collapse]
  | case2 v => simp [collapse]
  | case3 v w rest heq ih =>
      simp only [collapse, if_pos heq]
      exact ih.cons v
  | case4 v w rest hne ih =>
      simp only [collapse, if_neg hne]
      exact ih.cons₂ v

theorem collapse_pairwise_lt (l : List Value) (h : l.Pairwise tsLe) :
    (collapse l).Pairwise tsLt := by
  induction l using collapse.induct with
  | case1 => simp [collapse]
  | case2 v => simp [collapse, tsLt]
  | case3 v w rest heq ih =>
      simp only [collapse, if_pos heq]
      exact ih (List.pairwise_cons.mp h).2
  | case4 v w rest hne ih =>
      simp only [collapse, if_neg hne]
      rcases List.pairwise_cons.mp h with ⟨hv, hwrest⟩
      refine List.pairwise_cons.mpr ⟨?_, ih hwrest⟩
      intro u hu
      have humem : u ∈ w :: rest := (collapse_sublist (w :: rest)).mem hu
      have hvw : v.unixnano < w.unixnano :=
        lt_of_le_of_ne (hv w (List.mem_cons_self w rest)) hne
      rcases List.mem_cons.mp humem with rfl | hurest
      · exact hvw
      · exact lt_of_lt_of_le hvw ((List.pairwise_cons.mp hwrest).1 u hurest)

theorem filterTs_eq_nil (l : List Value) (t : Int)
    (h : ∀ u ∈ l, u.unixnano ≠ t) : filterTs l t = [] := by
  simp only [filterTs, List.filter_eq_nil_iff]
  intro u hu
  simpa using h u hu

theorem lastAt_collapse (l : List Value) (h : l.Pairwise tsLe) (t : Int) :
    lastAt (collapse l) t = lastAt l t := by
  induction l using collapse.induct with
  | case1 => rfl
  | case2 v => rfl
  | case3 v w rest heq ih =>
      simp only [collapse, if_pos heq]
      rw [ih (List.pairwise_cons.mp h).2]
      simp only [lastAt]
      by_cases hvt : v.unixnano = t
      · have hwt : w.unixnano = t := heq ▸ hvt
        rw [show filterTs (v :: w :: rest) t = v :: w :: filterTs rest t from by
              rw [filterTs_cons, if_pos hvt, filterTs_cons, if_pos hwt]]
        rw [show filterTs (w :: rest) t = w :: filterTs rest t from by
              rw [filterTs_cons, if_pos hwt]]
        rw [List.getLast?_cons_cons]
      · rw [show filterTs (v :: w :: rest) t = filterTs (w :: rest) t from by
              rw [filterTs_cons, if_neg hvt]]
  | case4 v w rest hne ih =>
      simp only [collapse, if_neg hne]
      rcases List.pairwise_cons.mp h with ⟨hv, hwrest⟩
      simp only [lastAt]
      rw [filterTs_cons, filterTs_cons]
      by_cases hvt : v.unixnano = t
      · have hvw : v.unixnano < w.unixnano :=
          lt_of_le_of_ne (hv w (List.mem_cons_self w rest)) hne
        have hall : ∀ u ∈ w :: rest, u.unixnano ≠ t := by
          intro u hu
          rcases List.mem_cons.mp hu with rfl | hurest
          · omega
          · have hle := (List.pairwise_cons.mp hwrest).1 u hurest
            simp only [tsLe] at hle
            omega
        have h1 : filterTs (w :: rest) t = [] := filterTs_eq_nil _ _ hall
        have h2 : filterTs (collapse (w :: rest)) t = [] := by
          refine filterTs_eq_nil _ _ ?_
          intro u hu
          exact hall u ((collapse_sublist (w :: rest)).mem hu)
        rw [if_pos hvt, if_pos hvt, h1, h2]
      · rw [if_neg hvt, if_neg hvt]
        exact ih hwrest

theorem filterTs_of_pairwise_lt (l : List Value) (h : l.Pairwise tsLt)
    (v : Value) (hm : v ∈ l) : filterTs l v.unixnano = [v] := by
  induction l with
  | nil => cases hm
  | cons u tl ih =>
      rcases List.pairwise_cons.mp h with ⟨hu, htl⟩
      rcases List.mem_cons.mp hm with rfl | hmem
      · rw [filterTs_cons, if_pos rfl]
        have : filterTs tl v.unixnano = [] := by
          refine filterTs_eq_nil _ _ ?_
          intro x hx
          have := hu x hx
          simp only [tsLt] at this
          omega
        rw [this]
      · have hne : u.unixnano ≠ v.unixnano := by
          have := hu v hmem
          simp only [tsLt] at this
          omega
        rw [filterTs_cons, if_neg hne]
        exact ih htl hmem

theorem lastAt_mem (l : List Value) (t : Int) (v : Value)
    (h : lastAt l t = some v) : v ∈ l ∧ v.unixnano = t := by
  have hx : v ∈ (filterTs l t).getLast? := Option.mem_def.mpr h
  obtain ⟨hne, heq⟩ := List.mem_getLast?_eq_getLast hx
  have hm : v ∈ filterTs l t := heq ▸ List.getLast_mem hne
  simp only [filterTs, List.mem_filter] at hm
  exact ⟨hm.1, by simpa using hm.2⟩

theorem dedupe_pairwise_lt (vs : List Value) : (dedupe vs).Pairwise tsLt :=
  collapse_pairwise_lt _ (pairwise_sortByTime vs)

theorem lastAt_dedupe (vs : List Value) (t : Int) :
    lastAt (dedupe vs) t = lastAt vs t := by
  unfold dedupe
  rw [lastAt_collapse _ (pairwise_sortByTime vs)]
  simp only [lastAt]
  rw [filterTs_sortByTime]

theorem mem_dedupe_iff (vs : List Value) (v : Value) :
    v ∈ dedupe vs ↔ lastAt vs v.unixnano = some v := by
  constructor
  · intro hm
    rw [← lastAt_dedupe]
    simp only [lastAt]
    rw [filterTs_of_pairwise_lt _ (dedupe_pairwise_lt vs) v hm]
    rfl
  · intro h
    rw [← lastAt_dedupe] at h
    exact (lastAt_mem _ _ _ h).1

theorem storeFind_cons (p : String × Entry) (st : Store) (k : String) :
    storeFind (p :: st) k = if p.1 = k then some p.2 else storeFind st k := by
  by_cases h : p.1 = k
  · simp only [storeFind, if_pos h]
    rw [List.find?_cons_of_pos _ (by simpa using h)]
    rfl
  · simp only [storeFind, if_neg h]
    rw [List.find?_cons_of_neg _ (by simpa using h)]

theorem storeFind_eq_none (st : Store) (k : String) :
    storeFind st k = none ↔ k ∉ st.map Prod.fst := by
  induction st with
  | nil => simp [storeFind]
  | cons p tl ih =>
      rw [storeFind_cons]
      by_cases h : p.1 = k
      · simp [h]
      · simp only [if_neg h, ih, List.map_cons, List.mem_cons]
        constructor
        · intro hk hc
          rcases hc with hc | hc
          · exact h hc.symm
          · exact hk hc
        · intro hk
          exact fun hc => hk (Or.inr hc)

theorem storeFind_storeUpdate_self (st : Store) (k : String) (e0 e : Entry)
    (h : storeFind st k = some e0) :
    storeFind (storeUpdate st k e) k = some e := by
  induction st with
  | nil => simp [storeFind] at h
  | cons p tl ih =>
      rw [storeFind_cons] at h
      by_cases hp : p.1 = k
      · simp only [storeUpdate, List.map_cons]
        rw [show (if p.1 == k then (p.1, e) else p) = (p.1, e) from by simp [hp]]
        rw [storeFind_cons, if_pos hp]
      · simp only [storeUpdate, List.map_cons]
        rw [show (if p.1 == k then (p.1, e) else p) = p from by simp [hp]]
        rw [storeFind_cons, if_neg hp]
        rw [if_neg hp] at h
        exact ih h

theorem storeFind_storeUpdate_ne (st : Store) (k k' : String) (e : Entry)
    (h : k' ≠ k) : storeFind (storeUpdate st k e) k' = storeFind st k' := by
  induction st with
  | nil => rfl
  | cons p tl ih =>
      simp only [storeUpdate, List.map_cons]
      by_cases hp : p.1 = k
      · rw [show (if p.1 == k then (p.1, e) else p) = (p.1, e) from by simp [hp]]
        rw [storeFind_cons, storeFind_cons]
        have hne : ¬ p.1 = k' := fun hc => h (hc ▸ hp.symm ▸ rfl)
        rw [if_neg hne, if_neg hne]
        exact ih
      · rw [show (if p.1 == k then (p.1, e) else p) = p from by simp [hp]]
        rw [storeFind_cons, storeFind_cons]
        by_cases hq : p.1 = k'
        · rw [if_pos hq, if_pos hq]
        · rw [if_neg hq, if_neg hq]
          exact ih

theorem storeFind_append_of_none (st1 st2 : Store) (k : String)
    (h : storeFind st1 k = none) :
    storeFind (st1 ++ st2) k = storeFind st2 k := by
  induction st1 with
  | nil => rfl
  | cons p tl ih =>
      rw [storeFind_cons] at h
      by_cases hp : p.1 = k
      · rw [if_pos hp] at h; cases h
      · rw [if_neg hp] at h
        rw [List.cons_append, storeFind_cons, if_neg hp]
        exact ih h

theorem storeFind_append_of_some (st1 st2 : Store) (k : String) (e : Entry)
    (h : storeFind st1 k = some e) :
    storeFind (st1 ++ st2) k = some e := by
  induction st1 with
  | nil => cases h
  | cons p tl ih =>
      rw [storeFind_cons] at h
      rw [List.cons_append, storeFind_cons]
      by_cases hp : p.1 = k
      · rw [if_pos hp] at h
        rw [if_pos hp]
        exact h
      · rw [if_neg hp] at h
        rw [if_neg hp]
        exact ih h

theorem storeFind_singleton_self (k : String) (e : Entry) :
    storeFind [(k, e)] k = some e := by
  rw [storeFind_cons, if_pos rfl]

theorem storeFind_singleton_ne (k k' : String) (e : Entry) (h : k' ≠ k) :
    storeFind [(k, e)] k' = none := by
  rw [storeFind_cons, if_neg (fun hc => h hc.symm)]
  rfl

theorem entryAdd_ok_values (e : Entry) (vs : List Value) (e' : Entry)
    (h : entryAdd e vs = .ok e') : e'.values = e.values ++ vs := by
  unfold entryAdd at h
  split at h
  · cases h; rfl
  · cases h

theorem newEntryValues_ok_values (vs : List Value) (e' : Entry)
    (h : newEntryValues vs = .ok e') : e'.values = vs := by
  unfold newEntryValues at h
  split at h
  · cases h; rfl
  · split at h
    · cases h; rfl
    · cases h

theorem storeWrite_error_conflict (st : Store) (k : String) (vs : List Value)
    (e : WriteError) (h : storeWrite st k vs = .error e) : e = .typeConflict := by
  unfold storeWrite at h
  split at h
  · split at h
    · cases h
    · next er ha =>
        cases h
        unfold entryAdd at ha
        split at ha
        · cases ha
        · cases ha; rfl
  · split at h
    · cases h
    · next er ha =>
        cases h
        unfold newEntryValues at ha
        split at ha
        · cases ha
        · split at ha
          · cases ha
          · cases ha; rfl

theorem storeWrite_ok_raw (st : Store) (k : String) (vs : List Value)
    (st' : Store) (nk : Bool) (h : storeWrite st k vs = .ok (st', nk)) :
    rawIn st' k = rawIn st k ++ vs := by
  unfold storeWrite at h
  split at h
  · next e0 hf =>
      split at h
      · next e' ha =>
          cases h
          unfold rawIn
          rw [storeFind_storeUpdate_self st k e0 _ hf, hf]
          simp only [Option.map_some', Option.getD_some]
          exact entryAdd_ok_values e0 vs e' ha
      · cases h
  · next hf =>
      split at h
      · next e' ha =>
          cases h
          unfold rawIn
          rw [storeFind_append_of_none st _ k hf, storeFind_singleton_self, hf]
          simp only [Option.map_some', Option.getD_some, Option.map_none', Option.getD_none]
          rw [newEntryValues_ok_values vs e' ha]
          rfl
      · cases h

theorem storeWrite_ok_other (st : Store) (k : String) (vs : List Value)
    (st' : Store) (nk : Bool) (h : storeWrite st k vs = .ok (st', nk))
    (k' : String) (hk : k' ≠ k) : storeFind st' k' = storeFind st k' := by
  unfold storeWrite at h
  split at h
  · split at h
    · cases h
      exact storeFind_storeUpdate_ne st k k' _ hk
    · cases h
  · split at h
    · cases h
      cases hsome : storeFind st k' with
      | none =>
          rw [storeFind_append_of_none st _ k' hsome,
              storeFind_singleton_ne k k' _ hk]
      | some e2 => rw [storeFind_append_of_some st _ k' e2 hsome]
    · cases h

theorem storeWrite_ok_newKey (st : Store) (k : String) (vs : List Value)
    (st' : Store) (nk : Bool) (h : storeWrite st k vs = .ok (st', nk)) :
    nk = (storeFind st k).isNone := by
  unfold storeWrite at h
  split at h
  · next e0 hf =>
      split at h
      · cases h; rw [hf]; rfl
      · cases h
  · next hf =>
      split at h
      · cases h; rw [hf]; rfl
      · cases h

theorem storeWrite_ok_find (st : Store) (k : String) (vs : List Value)
    (st' : Store) (nk : Bool) (e' : Entry)
    (h : storeWrite st k vs = .ok (st', nk))
    (ho : entryOutcome (storeFind st k) vs = .ok e') :
    storeFind st' k = some e' := by
  unfold storeWrite at h
  unfold entryOutcome at ho
  split at h
  · next e0 hf =>
      rw [hf] at ho
      simp only at ho
      split at h
      · next e1 ha =>
          rw [ha] at ho
          cases ho
          cases h
          exact storeFind_storeUpdate_self st k e0 e' hf
      · next ha =>
          rw [ha] at ho
          cases ho
  · next hf =>
      rw [hf] at ho
      simp only at ho
      split at h
      · next e1 ha =>
          rw [ha] at ho
          cases ho
          cases h
          rw [storeFind_append_of_none st _ k hf, storeFind_singleton_self]
      · next ha =>
          rw [ha] at ho
          cases ho

theorem storeWrite_outcome_ok (st : Store) (k : String) (vs : List Value)
    (st' : Store) (nk : Bool) (h : storeWrite st k vs = .ok (st', nk)) :
    ∃ e', entryOutcome (storeFind st k) vs = .ok e' := by
  unfold storeWrite at h
  split at h
  · next e0 hf =>
      unfold entryOutcome
      rw [hf]
      simp only
      split at h
      · next e1 ha => exact ⟨e1, ha⟩
      · cases h
  · next hf =>
      unfold entryOutcome
      rw [hf]
      simp only
      split at h
      · next e1 ha => exact ⟨e1, ha⟩
      · cases h

theorem storeWrite_outcome_error (st : Store) (k : String) (vs : List Value)
    (e : WriteError) (h : storeWrite st k vs = .error e) :
    entryOutcome (storeFind st k) vs = .error e := by
  unfold storeWrite at h
  split at h
  · next e0 hf =>
      unfold entryOutcome
      rw [hf]
      simp only
      split at h
      · cases h
      · next ha => cases h; exact ha
  · next hf =>
      unfold entryOutcome
      rw [hf]
      simp only
      split at h
      · cases h
      · next ha => cases h; exact ha

theorem cacheWrite_fields (c : Cache) (k : String) (vs : List Value) :
    (cacheWrite c k vs).1.snapshotStore = c.snapshotStore ∧
    (cacheWrite c k vs).1.maxSize = c.maxSize ∧
    (cacheWrite c k vs).1.snapshotSize = c.snapshotSize := by
  unfold cacheWrite
  dsimp only
  split
  · exact ⟨rfl, rfl, rfl⟩
  · split
    · exact ⟨rfl, rfl, rfl⟩
    · exact ⟨rfl, rfl, rfl⟩

theorem cacheWrite_cases (c : Cache) (k : String) (vs : List Value) :
    ((cacheWrite c k vs).2 = none ∧
      ∃ st' nk, storeWrite c.store k vs = .ok (st', nk) ∧
        (cacheWrite c k vs).1.store = st') ∨
    ((cacheWrite c k vs).2 ≠ none ∧ (cacheWrite c k vs).1.store = c.store) := by
  unfold cacheWrite
  dsimp only
  split
  · right
    exact ⟨by simp, rfl⟩
  · cases hw : storeWrite c.store k vs with
    | error e =>
        right
        exact ⟨by simp, rfl⟩
    | ok p =>
        cases p with
        | mk st1 nk =>
            left
            exact ⟨rfl, st1, nk, rfl, rfl⟩

theorem cacheWrite_ok_raw (c : Cache) (k : String) (vs : List Value)
    (h : (cacheWrite c k vs).2 = none) :
    rawIn (cacheWrite c k vs).1.store k = rawIn c.store k ++ vs := by
  rcases cacheWrite_cases c k vs with ⟨_, st', nk, hw, hst⟩ | ⟨hne, _⟩
  · rw [hst]
    exact storeWrite_ok_raw c.store k vs st' nk hw
  · exact absurd h hne

theorem cacheWrite_err_store (c : Cache) (k : String) (vs : List Value)
    (h : (cacheWrite c k vs).2 ≠ none) :
    (cacheWrite c k vs).1.store = c.store := by
  rcases cacheWrite_cases c k vs with ⟨hnone, _, _, _, _⟩ | ⟨_, hst⟩
  · exact absurd hnone h
  · exact hst

theorem cacheWrite_find_other (c : Cache) (k : String) (vs : List Value)
    (k' : String) (hk : k' ≠ k) :
    storeFind (cacheWrite c k vs).1.store k' = storeFind c.store k' := by
  rcases cacheWrite_cases c k vs with ⟨_, st', nk, hw, hst⟩ | ⟨_, hst⟩
  · rw [hst]
    exact storeWrite_ok_other c.store k vs st' nk hw k' hk
  · rw [hst]

theorem multiApply_singleton (st : Store) (k : String) (vs : List Value) :
    multiApply st [(k, vs)] =
      match storeWrite st k vs with
      | .error _ => (st, 0, [k])
      | .ok (st1, nk) =>
          (st1, valuesBytes vs + (if nk then k.length else 0), []) := by
  unfold multiApply
  cases hw : storeWrite st k vs with
  | error e => rfl
  | ok p =>
      cases p with
      | mk st1 nk => simp [multiApply]

theorem cacheWriteMulti_fields (c : Cache) (batch : List (String × List Value)) :
    (cacheWriteMulti c batch).1.snapshotStore = c.snapshotStore ∧
    (cacheWriteMulti c batch).1.maxSize = c.maxSize ∧
    (cacheWriteMulti c batch).1.snapshotSize = c.snapshotSize := by
  unfold cacheWriteMulti
  dsimp only
  split
  · exact ⟨rfl, rfl, rfl⟩
  · exact ⟨rfl, rfl, rfl⟩

theorem cacheWriteMulti_single_cases (c : Cache) (k : String) (vs : List Value) :
    ((cacheWriteMulti c [(k, vs)]).2 = none ∧
      ∃ st' nk, storeWrite c.store k vs = .ok (st', nk) ∧
        (cacheWriteMulti c [(k, vs)]).1.store = st') ∨
    ((cacheWriteMulti c [(k, vs)]).2 ≠ none ∧
      (cacheWriteMulti c [(k, vs)]).1.store = c.store) := by
  unfold cacheWriteMulti
  dsimp only
  split
  · right
    exact ⟨by simp, rfl⟩
  · rw [multiApply_singleton]
    cases hw : storeWrite c.store k vs with
    | error e =>
        right
        refine ⟨by simp, rfl⟩
    | ok p =>
        left
        cases p with
        | mk st1 nk =>
            refine ⟨by simp, st1, nk, rfl, rfl⟩

theorem cacheWriteMulti_single_ok_raw (c : Cache) (k : String) (vs : List Value)
    (h : (cacheWriteMulti c [(k, vs)]).2 = none) :
    rawIn (cacheWriteMulti c [(k, vs)]).1.store k = rawIn c.store k ++ vs := by
  rcases cacheWriteMulti_single_cases c k vs with ⟨_, st', nk, hw, hst⟩ | ⟨hne, _⟩
  · rw [hst]
    exact storeWrite_ok_raw c.store k vs st' nk hw
  · exact absurd h hne

theorem cacheWriteMulti_single_err_store (c : Cache) (k : String) (vs : List Value)
    (h : (cacheWriteMulti c [(k, vs)]).2 ≠ none) :
    (cacheWriteMulti c [(k, vs)]).1.store = c.store := by
  rcases cacheWriteMulti_single_cases c k vs with ⟨hnone, _, _, _, _⟩ | ⟨_, hst⟩
  · exact absurd hnone h
  · exact hst

theorem applyKeyOps_snapshotStore (ops : List KeyOp) (c : Cache) (k : String) :
    (applyKeyOps c k ops).1.snapshotStore = c.snapshotStore := by
  induction ops generalizing c with
  | nil => rfl
  | cons op rest ih =>
      cases op with
      | wr vs =>
          simp only [applyKeyOps]
          rw [ih]
          exact (cacheWrite_fields c k vs).1
      | wrMulti vs =>
          simp only [applyKeyOps]
          rw [ih]
          exact (cacheWriteMulti_fields c [(k, vs)]).1

theorem applyKeyOps_raw (ops : List KeyOp) (c : Cache) (k : String) :
    rawIn (applyKeyOps c k ops).1.store k =
      rawIn c.store k ++ ((applyKeyOps c k ops).2).flatten := by
  induction ops generalizing c with
  | nil => simp [applyKeyOps]
  | cons op rest ih =>
      cases op with
      | wr vs =>
          simp only [applyKeyOps]
          cases herr : (cacheWrite c k vs).2 with
          | none =>
              have h1 := cacheWrite_ok_raw c k vs herr
              simp only [herr, Option.isNone_none, if_true]
              rw [ih, h1]
              simp
          | some e =>
              have h1 := cacheWrite_err_store c k vs (by rw [herr]; simp)
              simp only [herr, Option.isNone_some, Bool.false_eq_true, if_false]
              rw [ih, h1]
              simp
      | wrMulti vs =>
          simp only [applyKeyOps]
          cases herr : (cacheWriteMulti c [(k, vs)]).2 with
          | none =>
              have h1 := cacheWriteMulti_single_ok_raw c k vs herr
              simp only [herr, Option.isNone_none, if_true]
              rw [ih, h1]
              simp
          | some e =>
              have h1 := cacheWriteMulti_single_err_store c k vs (by rw [herr]; simp)
              simp only [herr, Option.isNone_some, Bool.false_eq_true, if_false]
              rw [ih, h1]
              simp

theorem rawIn_congr (st1 st2 : Store) (k : String)
    (h : storeFind st1 k = storeFind st2 k) : rawIn st1 k = rawIn st2 k := by
  unfold rawIn
  rw [h]

theorem writtenTo_nil (k : String) : writtenTo [] k = [] := rfl

theorem writtenTo_cons (kv : String × List Value) (acc : List (String × List Value))
    (k : String) :
    writtenTo (kv :: acc) k = (if kv.1 = k then kv.2 else []) ++ writtenTo acc k := by
  unfold writtenTo
  by_cases h : kv.1 = k
  · rw [if_pos h]
    rw [List.filter_cons_of_pos (by simpa using h)]
    simp
  · rw [if_neg h]
    rw [List.filter_cons_of_neg (by simpa using h)]
    simp

theorem applyWrites_snapshotStore (ops : List (String × List Value)) (c : Cache) :
    (applyWrites c ops).1.snapshotStore = c.snapshotStore := by
  induction ops generalizing c with
  | nil => rfl
  | cons kv rest ih =>
      simp only [applyWrites]
      rw [ih]
      exact (cacheWrite_fields c kv.1 kv.2).1

theorem applyWrites_raw (ops : List (String × List Value)) (c : Cache) (k : String) :
    rawIn (applyWrites c ops).1.store k =
      rawIn c.store k ++ writtenTo (applyWrites c ops).2 k := by
  induction ops generalizing c with
  | nil => simp [applyWrites, writtenTo_nil]
  | cons kv rest ih =>
      simp only [applyWrites]
      cases herr : (cacheWrite c kv.1 kv.2).2 with
      | none =>
          simp only [herr, Option.isNone_none, if_true, List.singleton_append]
          rw [ih, writtenTo_cons]
          by_cases hk : kv.1 = k
          · rw [if_pos hk]
            subst hk
            have h1 := cacheWrite_ok_raw c kv.1 kv.2 herr
            rw [h1]
            simp
          · rw [if_neg hk]
            have h1 := cacheWrite_find_other c kv.1 kv.2 k (fun hc => hk hc.symm)
            rw [rawIn_congr _ _ k h1]
            simp
      | some e =>
          simp only [herr, Option.isNone_some, Bool.false_eq_true, if_false,
            List.nil_append]
          rw [ih]
          have h1 := cacheWrite_err_store c kv.1 kv.2 (by rw [herr]; simp)
          rw [h1]

theorem applyWrites_find_untouched (ops : List (String × List Value)) (c : Cache)
    (k : String) (h : ∀ kv ∈ ops, kv.1 ≠ k) :
    storeFind (applyWrites c ops).1.store k = storeFind c.store k := by
  induction ops generalizing c with
  | nil => rfl
  | cons kv rest ih =>
      simp only [applyWrites]
      rw [ih _ (fun kv2 h2 => h kv2 (List.mem_cons_of_mem kv h2))]
      exact cacheWrite_find_other c kv.1 kv.2 k
        (fun hc => h kv (List.mem_cons_self kv rest) hc.symm)

/-- C2: for every sequence of `Write` and `WriteMulti` calls applied to a
single key, `Values(key)` is sorted by timestamp strictly ascending (hence
has no duplicate timestamps), and it holds exactly the most recently written
(accepted) value for each timestamp that was written — last write wins. -/
theorem c2_values_sorted_last_write_wins (m : Nat) (k : String) (ops : List KeyOp) :
    ((cacheValues (applyKeyOps (newCache m) k ops).1 k).Pairwise tsLt) ∧
    (∀ v : Value, v ∈ cacheValues (applyKeyOps (newCache m) k ops).1 k ↔
        lastAt ((applyKeyOps (newCache m) k ops).2).flatten v.unixnano = some v) := by
  have hsnap : (applyKeyOps (newCache m) k ops).1.snapshotStore = none :=
    applyKeyOps_snapshotStore ops (newCache m) k
  have hraw := applyKeyOps_raw ops (newCache m) k
  have hvals : cacheValues (applyKeyOps (newCache m) k ops).1 k =
      dedupe (((applyKeyOps (newCache m) k ops).2).flatten) := by
    unfold cacheValues
    rw [hsnap]
    dsimp only
    rw [hraw]
    have hnil : rawIn (newCache m).store k = [] := rfl
    rw [hnil]
    simp
  refine ⟨?_, ?_⟩
  · rw [hvals]
    exact dedupe_pairwise_lt _
  · intro v
    rw [hvals]
    exact mem_dedupe_iff _ v

/-- C4: after `Snapshot()`, `Values(key)` returns the merge of the frozen
pre-snapshot values with the values accepted after the snapshot,
deduplicated (later writes win) and timestamp-ascending; after
`ClearSnapshot(true)`, `Values(key)` returns exactly the (deduplicated)
values written after the snapshot was taken. -/
theorem c4_snapshot_merge_and_clear (c0 : Cache) (k : String)
    (ops : List (String × List Value)) (h : c0.snapshotStore = none) :
    cacheValues (applyWrites (cacheSnapshot c0).1 ops).1 k =
        dedupe (rawIn c0.store k ++
          writtenTo (applyWrites (cacheSnapshot c0).1 ops).2 k) ∧
    (cacheValues (applyWrites (cacheSnapshot c0).1 ops).1 k).Pairwise tsLt ∧
    cacheValues (clearSnapshot (applyWrites (cacheSnapshot c0).1 ops).1 true) k =
        dedupe (writtenTo (applyWrites (cacheSnapshot c0).1 ops).2 k) := by
  have hc1 : (cacheSnapshot c0).1 =
      { c0 with snapshotStore := some c0.store, store := [],
                snapshotSize := c0.cacheSize, cacheSize := 0,
                snapshottedBytes := c0.snapshottedBytes + c0.cacheSize } := by
    unfold cacheSnapshot
    rw [h]
  have hsnap : (applyWrites (cacheSnapshot c0).1 ops).1.snapshotStore =
      some c0.store := by
    rw [applyWrites_snapshotStore, hc1]
  have hraw := applyWrites_raw ops (cacheSnapshot c0).1 k
  have hrawnil : rawIn (cacheSnapshot c0).1.store k = [] := by
    rw [hc1]
    rfl
  rw [hrawnil] at hraw
  simp only [List.nil_append] at hraw
  have hvals : cacheValues (applyWrites (cacheSnapshot c0).1 ops).1 k =
      dedupe (rawIn c0.store k ++
        writtenTo (applyWrites (cacheSnapshot c0).1 ops).2 k) := by
    unfold cacheValues
    rw [hsnap]
    dsimp only
    rw [hraw]
  refine ⟨hvals, ?_, ?_⟩
  · rw [hvals]
    exact dedupe_pairwise_lt _
  · unfold clearSnapshot
    rw [if_pos rfl]
    unfold cacheValues
    dsimp only
    rw [hraw]
    simp

/-- C10: `Values(key)` on a key never written is the empty result — not an
error and not a non-empty sequence — both on a fresh cache (after any writes
to other keys) and while a snapshot is outstanding. -/
theorem c10_unwritten_key_empty (m : Nat) (k : String)
    (ops : List (String × List Value)) (h : ∀ kv ∈ ops, kv.1 ≠ k) :
    cacheValues (applyWrites (newCache m) ops).1 k = [] ∧
    cacheValues (cacheSnapshot (applyWrites (newCache m) ops).1).1 k = [] := by
  have hf : storeFind (applyWrites (newCache m) ops).1.store k = none := by
    rw [applyWrites_find_untouched ops (newCache m) k h]
    rfl
  have hraw : rawIn (applyWrites (newCache m) ops).1.store k = [] := by
    unfold rawIn
    rw [hf]
    rfl
  have hsnap : (applyWrites (newCache m) ops).1.snapshotStore = none := by
    rw [applyWrites_snapshotStore]
    rfl
  constructor
  · unfold cacheValues
    rw [hsnap]
    dsimp only
    rw [hraw]
    rfl
  · have hc3 : (cacheSnapshot (applyWrites (newCache m) ops).1).1 =
        { (applyWrites (newCache m) ops).1 with
            snapshotStore := some (applyWrites (newCache m) ops).1.store,
            store := [],
            snapshotSize := (applyWrites (newCache m) ops).1.cacheSize,
            cacheSize := 0,
            snapshottedBytes := (applyWrites (newCache m) ops).1.snapshottedBytes +
              (applyWrites (newCache m) ops).1.cacheSize } := by
      unfold cacheSnapshot
      rw [hsnap]
    rw [hc3]
    unfold cacheValues
    dsimp only
    rw [hraw]
    rfl

theorem multiApply_find_untouched (batch : List (String × List Value)) (st : Store)
    (k : String) (h : ∀ kv ∈ batch, kv.1 ≠ k) :
    storeFind (multiApply st batch).1 k = storeFind st k := by
  induction batch generalizing st with
  | nil => rfl
  | cons kv rest ih =>
      simp only [multiApply]
      cases hw : storeWrite st kv.1 kv.2 with
      | error e =>
          exact ih st (fun kv2 h2 => h kv2 (List.mem_cons_of_mem kv h2))
      | ok p =>
          cases p with
          | mk st1 nk =>
              dsimp only
              rw [ih st1 (fun kv2 h2 => h kv2 (List.mem_cons_of_mem kv h2))]
              exact storeWrite_ok_other st kv.1 kv.2 st1 nk hw k
                (fun hc => h kv (List.mem_cons_self kv rest) hc.symm)

theorem multiApply_bad_sub (batch : List (String × List Value)) (st : Store)
    (k : String) (h : k ∈ (multiApply st batch).2.2) :
    k ∈ batch.map Prod.fst := by
  induction batch generalizing st with
  | nil => cases h
  | cons kv rest ih =>
      simp only [multiApply] at h
      cases hw : storeWrite st kv.1 kv.2 with
      | error e =>
          rw [hw] at h
          dsimp only at h
          rcases List.mem_cons.mp h with rfl | h2
          · exact List.mem_cons_self _ _
          · exact List.mem_cons_of_mem _ (ih st h2)
      | ok p =>
          cases p with
          | mk st1 nk =>
              rw [hw] at h
              dsimp only at h
              exact List.mem_cons_of_mem _ (ih st1 h)

theorem multiApply_mem_spec (batch : List (String × List Value)) (st : Store)
    (hnd : (batch.map Prod.fst).Nodup) (kv : String × List Value)
    (hmem : kv ∈ batch) :
    (∀ e', entryOutcome (storeFind st kv.1) kv.2 = .ok e' →
        storeFind (multiApply st batch).1 kv.1 = some e' ∧
        kv.1 ∉ (multiApply st batch).2.2) ∧
    (∀ er, entryOutcome (storeFind st kv.1) kv.2 = .error er →
        storeFind (multiApply st batch).1 kv.1 = storeFind st kv.1 ∧
        kv.1 ∈ (multiApply st batch).2.2) := by
  induction batch generalizing st with
  | nil => cases hmem
  | cons kv0 rest ih =>
      rw [List.map_cons, List.nodup_cons] at hnd
      obtain ⟨hnotin, hndr⟩ := hnd
      simp only [multiApply]
      cases hw : storeWrite st kv0.1 kv0.2 with
      | error e =>
          dsimp only
          have hout0 := storeWrite_outcome_error st kv0.1 kv0.2 e hw
          rcases List.mem_cons.mp hmem with rfl | hrest
          · have hfind : storeFind (multiApply st rest).1 kv.1 = storeFind st kv.1 := by
              refine multiApply_find_untouched rest st kv.1 ?_
              intro kv2 h2 hc
              exact hnotin (hc ▸ List.mem_map_of_mem Prod.fst h2)
            constructor
            · intro e' hok
              rw [hout0] at hok
              cases hok
            · intro er herr
              exact ⟨hfind, List.mem_cons_self _ _⟩
          · have hne : kv.1 ≠ kv0.1 := by
              intro hc
              exact hnotin (hc ▸ List.mem_map_of_mem Prod.fst hrest)
            have ihr := ih st hndr hrest
            constructor
            · intro e' hok
              refine ⟨(ihr.1 e' hok).1, ?_⟩
              intro hc
              rcases List.mem_cons.mp hc with hc1 | hc2
              · exact hne hc1
              · exact (ihr.1 e' hok).2 hc2
            · intro er herr
              exact ⟨(ihr.2 er herr).1, List.mem_cons_of_mem _ (ihr.2 er herr).2⟩
      | ok p =>
          cases p with
          | mk st1 nk =>
              dsimp only
              rcases List.mem_cons.mp hmem with rfl | hrest
              · obtain ⟨e0, hout0⟩ := storeWrite_outcome_ok st kv.1 kv.2 st1 nk hw
                have hnotrest : ∀ kv2 ∈ rest, kv2.1 ≠ kv.1 := by
                  intro kv2 h2 hc
                  exact hnotin (hc ▸ List.mem_map_of_mem Prod.fst h2)
                have hfind : storeFind (multiApply st1 rest).1 kv.1 =
                    storeFind st1 kv.1 :=
                  multiApply_find_untouched rest st1 kv.1 hnotrest
                constructor
                · intro e' hok
                  refine ⟨?_, ?_⟩
                  · rw [hfind]
                    exact storeWrite_ok_find st kv.1 kv.2 st1 nk e' hw hok
                  · intro hc
                    exact hnotin (multiApply_bad_sub rest st1 kv.1 hc)
                · intro er herr
                  rw [hout0] at herr
                  cases herr
              · have hne : kv.1 ≠ kv0.1 := by
                  intro hc
                  exact hnotin (hc ▸ List.mem_map_of_mem Prod.fst hrest)
                have hpres : storeFind st1 kv.1 = storeFind st kv.1 :=
                  storeWrite_ok_other st kv0.1 kv0.2 st1 nk hw kv.1 hne
                have ihr := ih st1 hndr hrest
                rw [hpres] at ihr
                exact ihr

theorem multiPredictedBytes_congr (batch : List (String × List Value))
    (st1 st2 : Store) (h : ∀ kv ∈ batch, storeFind st1 kv.1 = storeFind st2 kv.1) :
    multiPredictedBytes st1 batch = multiPredictedBytes st2 batch := by
  unfold multiPredictedBytes
  induction batch with
  | nil => rfl
  | cons kv rest ih =>
      simp only [List.map_cons, List.sum_cons]
      rw [h kv (List.mem_cons_self kv rest)]
      rw [ih (fun kv2 h2 => h kv2 (List.mem_cons_of_mem kv h2))]

theorem multiApply_bytes (batch : List (String × List Value)) (st : Store)
    (hnd : (batch.map Prod.fst).Nodup) :
    (multiApply st batch).2.1 = multiPredictedBytes st batch := by
  induction batch generalizing st with
  | nil => rfl
  | cons kv0 rest ih =>
      rw [List.map_cons, List.nodup_cons] at hnd
      obtain ⟨hnotin, hndr⟩ := hnd
      simp only [multiApply]
      cases hw : storeWrite st kv0.1 kv0.2 with
      | error e =>
          dsimp only
          have hout0 := storeWrite_outcome_error st kv0.1 kv0.2 e hw
          unfold multiPredictedBytes
          simp only [List.map_cons, List.sum_cons]
          rw [hout0]
          dsimp only
          rw [ih st hndr]
          unfold multiPredictedBytes
          simp
      | ok p =>
          cases p with
          | mk st1 nk =>
              dsimp only
              obtain ⟨e0, hout0⟩ := storeWrite_outcome_ok st kv0.1 kv0.2 st1 nk hw
              have hnk := storeWrite_ok_newKey st kv0.1 kv0.2 st1 nk hw
              unfold multiPredictedBytes
              simp only [List.map_cons, List.sum_cons]
              rw [hout0]
              dsimp only
              have hcongr : multiPredictedBytes st1 rest = multiPredictedBytes st rest := by
                refine multiPredictedBytes_congr rest st1 st ?_
                intro kv2 h2
                refine storeWrite_ok_other st kv0.1 kv0.2 st1 nk hw kv2.1 ?_
                intro hc
                exact hnotin (hc ▸ List.mem_map_of_mem Prod.fst h2)
              rw [ih st1 hndr, hcongr]
              subst hnk
              have hfold : (List.map (fun kv =>
                  match entryOutcome (storeFind st kv.1) kv.2 with
                  | .ok _ => valuesBytes kv.2 +
                      (if (storeFind st kv.1).isNone then kv.1.length else 0)
                  | .error _ => 0) rest).sum = multiPredictedBytes st rest := rfl
              rw [hfold]
              ring

/-- C5 counterexample: with a 16-byte ceiling, write one 16-byte float (live
size becomes 19 with key overhead), take a snapshot (live store is now
empty), then write one more 16-byte float to a fresh key.  The live-store
size after that write (16) would stay at the ceiling, yet the write is
rejected with a capacity error, because the check charges the 19 bytes held
by the outstanding snapshot — exactly the scenario of
`TestCache_CacheWriteMemoryExceeded` ("write should still fail since we're
still using the memory"). -/
theorem c5_counterexample :
    (cacheSnapshot (cacheWrite (newCache 16) "foo" [⟨1, .float 0⟩]).1).1.cacheSize +
        valuesBytes [(⟨2, .float 0⟩ : Value)] ≤
      (cacheSnapshot (cacheWrite (newCache 16) "foo" [⟨1, .float 0⟩]).1).1.maxSize ∧
    isCapacityErr
      (cacheWrite (cacheSnapshot (cacheWrite (newCache 16) "foo" [⟨1, .float 0⟩]).1).1
        "bar" [⟨2, .float 0⟩]).2 = true := by
  decide

/-- C5 (amended): the memory-ceiling check for `Write` and `WriteMulti` is
evaluated against the live store's size PLUS the bytes held by the
outstanding snapshot (that is, against `Size()`): a write is rejected with a
capacity error exactly when a ceiling is configured and
live size + snapshot size + incremental size exceeds it, so bytes held in
an outstanding snapshot do count against the ceiling. -/
theorem c5_amended_ceiling_counts_snapshot (c : Cache) (k : String)
    (vs : List Value) (batch : List (String × List Value)) :
    (isCapacityErr (cacheWrite c k vs).2 = true ↔
      (0 < c.maxSize ∧ c.maxSize < c.cacheSize + c.snapshotSize + valuesBytes vs)) ∧
    (isCapacityErr (cacheWriteMulti c batch).2 = true ↔
      (0 < c.maxSize ∧ c.maxSize < c.cacheSize + c.snapshotSize + batchBytes batch)) := by
  constructor
  · unfold cacheWrite
    dsimp only
    split
    · next hcond =>
        simp only [isCapacityErr]
        unfold cacheSizeOf at hcond
        exact iff_of_true trivial hcond
    · next hcond =>
        unfold cacheSizeOf at hcond
        refine iff_of_false ?_ hcond
        cases hw : storeWrite c.store k vs with
        | error e =>
            have := storeWrite_error_conflict c.store k vs e hw
            subst this
            simp [isCapacityErr]
        | ok p =>
            cases p with
            | mk st1 nk => simp [isCapacityErr]
  · unfold cacheWriteMulti
    dsimp only
    split
    · next hcond =>
        simp only [isCapacityErr]
        unfold cacheSizeOf at hcond
        exact iff_of_true trivial hcond
    · next hcond =>
        unfold cacheSizeOf at hcond
        refine iff_of_false ?_ hcond
        by_cases hb : (multiApply c.store batch).2.2.isEmpty
        · simp [hb, isCapacityErr]
        · simp [hb, isCapacityErr]

/-- C6: a write whose application would exceed the configured memory ceiling
(live plus snapshotted bytes plus the batch's incremental size above the
ceiling) is rejected — for `Write` and for `WriteMulti` — with a capacity
error that is not a type-conflict error; the reported `Size()` and the
store (hence the key's previously stored values) are unchanged by the
rejected write. -/
theorem c6_capacity_error_rejection (c : Cache) (k : String) (vs : List Value)
    (batch : List (String × List Value)) (h1 : 0 < c.maxSize)
    (h2 : c.maxSize < cacheSizeOf c + valuesBytes vs)
    (h3 : c.maxSize < cacheSizeOf c + batchBytes batch) :
    ((cacheWrite c k vs).2 =
        some (.capacityExceeded (cacheSizeOf c + valuesBytes vs) c.maxSize) ∧
      (cacheWrite c k vs).2 ≠ some .typeConflict ∧
      cacheSizeOf (cacheWrite c k vs).1 = cacheSizeOf c ∧
      (cacheWrite c k vs).1.store = c.store) ∧
    ((cacheWriteMulti c batch).2 =
        some (.capacityExceeded (cacheSizeOf c + batchBytes batch) c.maxSize) ∧
      (cacheWriteMulti c batch).2 ≠ some .typeConflict ∧
      cacheSizeOf (cacheWriteMulti c batch).1 = cacheSizeOf c ∧
      (cacheWriteMulti c batch).1.store = c.store) := by
  constructor
  · unfold cacheWrite
    dsimp only
    rw [if_pos ⟨h1, h2⟩]
    refine ⟨rfl, by simp, rfl, rfl⟩
  · unfold cacheWriteMulti
    dsimp only
    rw [if_pos ⟨h1, h3⟩]
    refine ⟨rfl, by simp, rfl, rfl⟩

/-- C6 witness at a concrete input: ceiling 1, one 16-byte float. -/
theorem c6_capacity_error_rejection_witness :
    (cacheWrite (newCache 1) "k" [⟨1, Payload.float 0⟩]).2 =
        some (.capacityExceeded 16 1) ∧
      cacheSizeOf (cacheWrite (newCache 1) "k" [⟨1, Payload.float 0⟩]).1 = 0 ∧
    (cacheWriteMulti (newCache 1) [("k", [⟨1, Payload.float 0⟩])]).2 =
        some (.capacityExceeded 16 1) :=
  have h := c6_capacity_error_rejection (newCache 1) "k" [⟨1, Payload.float 0⟩]
    [("k", [⟨1, Payload.float 0⟩])] (by decide) (by decide) (by decide)
  ⟨h.1.1, h.1.2.2.1, h.2.1⟩

/-- C7: writing a value of the wrong scalar type to a key with an
established type yields a type-conflict outcome for that key; in a
`WriteMulti` batch (distinct keys, ceiling not hit) every key is applied
independently — keys whose outcome succeeds are stored and absent from the
reported failed keys, keys whose outcome fails keep their previous values
and are enumerated in the single aggregate error — and the size accounting
adds exactly the successful keys' bytes, leaving failed keys uncounted. -/
theorem c7_type_conflict_per_key_independence (c : Cache)
    (batch : List (String × List Value))
    (hnd : (batch.map Prod.fst).Nodup)
    (hcap : ¬(0 < c.maxSize ∧ c.maxSize < cacheSizeOf c + batchBytes batch)) :
    (∀ kv ∈ batch, ∀ e0 : Entry, storeFind c.store kv.1 = some e0 →
        (∃ v ∈ kv.2, v.payload.vtype ≠ e0.vtype) →
        entryOutcome (storeFind c.store kv.1) kv.2 = .error .typeConflict) ∧
    (∀ kv ∈ batch,
      (∀ e', entryOutcome (storeFind c.store kv.1) kv.2 = .ok e' →
          storeFind (cacheWriteMulti c batch).1.store kv.1 = some e' ∧
          kv.1 ∉ failedKeysOf (cacheWriteMulti c batch).2) ∧
      (∀ er, entryOutcome (storeFind c.store kv.1) kv.2 = .error er →
          storeFind (cacheWriteMulti c batch).1.store kv.1 = storeFind c.store kv.1 ∧
          kv.1 ∈ failedKeysOf (cacheWriteMulti c batch).2)) ∧
    ((cacheWriteMulti c batch).2 = none ∨
      ∃ ks, (cacheWriteMulti c batch).2 = some (.batchFailed ks) ∧ ks ≠ []) ∧
    (cacheWriteMulti c batch).1.cacheSize =
      c.cacheSize + multiPredictedBytes c.store batch := by
  have hstore : (cacheWriteMulti c batch).1.store = (multiApply c.store batch).1 := by
    unfold cacheWriteMulti
    dsimp only
    rw [if_neg hcap]
  have herr : (cacheWriteMulti c batch).2 =
      (if (multiApply c.store batch).2.2.isEmpty then none
       else some (.batchFailed (multiApply c.store batch).2.2)) := by
    unfold cacheWriteMulti
    dsimp only
    rw [if_neg hcap]
  have hfailed : failedKeysOf (cacheWriteMulti c batch).2 =
      (multiApply c.store batch).2.2 := by
    rw [herr]
    by_cases hb : (multiApply c.store batch).2.2.isEmpty
    · rw [if_pos hb]
      unfold failedKeysOf
      exact (List.isEmpty_iff.mp hb).symm
    · rw [if_neg hb]
      rfl
  refine ⟨?_, ?_, ?_, ?_⟩
  · intro kv _ e0 hf hex
    rw [hf]
    unfold entryOutcome entryAdd
    dsimp only
    obtain ⟨v, hv, hvt⟩ := hex
    rw [if_neg ?_]
    intro hall
    rw [List.all_eq_true] at hall
    exact hvt (by simpa using hall v hv)
  · intro kv hmem
    have hspec := multiApply_mem_spec batch c.store hnd kv hmem
    rw [hstore, hfailed]
    exact hspec
  · rw [herr]
    by_cases hb : (multiApply c.store batch).2.2.isEmpty
    · left
      rw [if_pos hb]
    · right
      refine ⟨(multiApply c.store batch).2.2, ?_, ?_⟩
      · rw [if_neg hb]
      · intro hc
        rw [hc] at hb
        exact hb rfl
  · unfold cacheWriteMulti
    dsimp only
    rw [if_neg hcap]
    dsimp only
    rw [multiApply_bytes batch c.store hnd]

/-- C7 witness at a concrete input: a two-key batch where "foo" (established
float) receives an int and "bar" receives a clean float; the conflicting key
keeps its value, the other key is applied, the aggregate error names only
"foo". -/
theorem c7_type_conflict_per_key_independence_witness :
    storeFind (cacheWriteMulti (cacheWrite (newCache 0) "foo" [⟨1, .float 5⟩]).1
        [("foo", [⟨2, .int 7⟩]), ("bar", [⟨3, .float 9⟩])]).1.store "foo" =
      some { vtype := .float, values := [⟨1, .float 5⟩] } ∧
    "foo" ∈ failedKeysOf (cacheWriteMulti (cacheWrite (newCache 0) "foo" [⟨1, .float 5⟩]).1
        [("foo", [⟨2, .int 7⟩]), ("bar", [⟨3, .float 9⟩])]).2 := by
  have h := c7_type_conflict_per_key_independence
    (cacheWrite (newCache 0) "foo" [⟨1, .float 5⟩]).1
    [("foo", [⟨2, .int 7⟩]), ("bar", [⟨3, .float 9⟩])]
    (by decide) (by decide)
  have h2 := (h.2.1 ("foo", [⟨2, .int 7⟩]) (by decide)).2 .typeConflict rfl
  refine ⟨?_, h2.2⟩
  rw [h2.1]
  decide

theorem valuesBytes_perm (l1 l2 : List Value) (h : List.Perm l1 l2) :
    valuesBytes l1 = valuesBytes l2 :=
  (h.map Value.size).sum_eq

theorem valuesBytes_sublist_le (l1 l2 : List Value) (h : List.Sublist l1 l2) :
    valuesBytes l1 ≤ valuesBytes l2 :=
  List.Sublist.sum_le_sum (h.map Value.size) (fun a _ => Nat.zero_le a)

theorem dedupe_bytes_le (vs : List Value) : valuesBytes (dedupe vs) ≤ valuesBytes vs := by
  calc valuesBytes (dedupe vs) ≤ valuesBytes (sortByTime vs) :=
        valuesBytes_sublist_le _ _ (collapse_sublist _)
    _ = valuesBytes vs := valuesBytes_perm _ _ (sortByTime_perm vs)

theorem mem_dedupe_mem (vs : List Value) (v : Value) (h : v ∈ dedupe vs) : v ∈ vs := by
  have := (mem_dedupe_iff vs v).mp h
  exact (lastAt_mem vs v.unixnano v this).1

theorem dbrStore_bytes (name : String) (mn mx : Int) (pred : KeyPred) (st : Store) :
    storeBytes (dbrStore name mn mx pred st).1 + (dbrStore name mn mx pred st).2 =
      storeBytes st := by
  induction st with
  | nil => rfl
  | cons kv rest ih =>
      simp only [dbrStore]
      split
      · split
        · simp only [storeBytes, List.map_cons, List.sum_cons] at *
          omega
        · split
          · simp only [storeBytes, List.map_cons, List.sum_cons] at *
            omega
          · next vs' hne =>
              have hle : valuesBytes ((dedupe kv.2.values).filter
                  (fun v => v.unixnano < mn ∨ mx < v.unixnano)) ≤ entryBytes kv.2 := by
                calc valuesBytes ((dedupe kv.2.values).filter
                      (fun v => v.unixnano < mn ∨ mx < v.unixnano)) ≤
                    valuesBytes (dedupe kv.2.values) :=
                      valuesBytes_sublist_le _ _ (List.filter_sublist _)
                  _ ≤ valuesBytes kv.2.values := dedupe_bytes_le _
                  _ = entryBytes kv.2 := rfl
              simp only [storeBytes, List.map_cons, List.sum_cons] at *
              dsimp only [entryBytes] at *
              omega
      · simp only [storeBytes, List.map_cons, List.sum_cons] at *
        omega

theorem dbrStore_find_none (name : String) (mn mx : Int) (pred : KeyPred)
    (st : Store) (k : String) (h : storeFind st k = none) :
    storeFind (dbrStore name mn mx pred st).1 k = none := by
  induction st with
  | nil => exact h
  | cons kv rest ih =>
      rw [storeFind_cons] at h
      by_cases hp : kv.1 = k
      · rw [if_pos hp] at h; cases h
      · rw [if_neg hp] at h
        simp only [dbrStore]
        split
        · split
          · exact ih h
          · split
            · exact ih h
            · rw [storeFind_cons, if_neg hp]
              exact ih h
        · rw [storeFind_cons, if_neg hp]
          exact ih h

theorem dbrStore_find (name : String) (mn mx : Int) (pred : KeyPred) (st : Store)
    (k : String) (hnd : (st.map Prod.fst).Nodup) :
    storeFind (dbrStore name mn mx pred st).1 k =
      match storeFind st k with
      | none => none
      | some e =>
          if strStartsWith name k && predOk pred k then
            if mn = int64Min ∧ mx = int64Max then none
            else
              if (dedupe e.values).filter
                  (fun v => v.unixnano < mn ∨ mx < v.unixnano) = [] then none
              else some { e with values :=
                (dedupe e.values).filter (fun v => v.unixnano < mn ∨ mx < v.unixnano) }
          else some e := by
  induction st with
  | nil => rfl
  | cons kv rest ih =>
      rw [List.map_cons, List.nodup_cons] at hnd
      obtain ⟨hnotin, hndr⟩ := hnd
      by_cases hp : kv.1 = k
      · subst hp
        have hrest : storeFind rest kv.1 = none :=
          (storeFind_eq_none rest kv.1).mpr hnotin
        have hfind : storeFind (kv :: rest) kv.1 = some kv.2 := by
          rw [storeFind_cons, if_pos rfl]
        rw [hfind]
        simp only [dbrStore]
        split
        · split
          · dsimp only
            exact dbrStore_find_none name mn mx pred rest kv.1 hrest
          · split
            · dsimp only
              exact dbrStore_find_none name mn mx pred rest kv.1 hrest
            · dsimp only
              rw [storeFind_cons, if_pos rfl]
        · dsimp only
          rw [storeFind_cons, if_pos rfl]
      · have hfind : storeFind (kv :: rest) k = storeFind rest k := by
          rw [storeFind_cons, if_neg hp]
        rw [hfind, ← ih hndr]
        simp only [dbrStore]
        split
        · split
          · rfl
          · split
            · rfl
            · dsimp only
              rw [storeFind_cons, if_neg hp]
        · dsimp only
          rw [storeFind_cons, if_neg hp]

theorem storeFind_mem (st : Store) (k : String) (e : Entry)
    (h : storeFind st k = some e) : (k, e) ∈ st := by
  unfold storeFind at h
  cases hfd : st.find? (fun p => p.1 == k) with
  | none => rw [hfd] at h; cases h
  | some pr =>
      rw [hfd] at h
      simp only [Option.map_some', Option.some.injEq] at h
      have h1 : pr.1 = k := by simpa using List.find?_some hfd
      have h2 := List.mem_of_find?_eq_some hfd
      cases pr with
      | mk a b =>
          dsimp only at h h1
          subst h1
          subst h
          exact h2

theorem mem_foldl_insertKey (l : List String) (init : List String) (k : String) :
    k ∈ l.foldl insertKey init ↔ k ∈ init ∨ k ∈ l := by
  induction l generalizing init with
  | nil => simp
  | cons a tl ih =>
      simp only [List.foldl_cons]
      rw [ih]
      unfold insertKey
      by_cases ha : a ∈ init
      · rw [if_pos ha]
        simp only [List.mem_cons]
        constructor
        · rintro (h | h)
          · exact Or.inl h
          · exact Or.inr (Or.inr h)
        · rintro (h | h | h)
          · exact Or.inl h
          · exact Or.inl (h ▸ ha)
          · exact Or.inr h
      · rw [if_neg ha]
        simp only [List.mem_append, List.mem_singleton, List.mem_cons]
        tauto

theorem mem_cacheKeys (c : Cache) (hs : c.snapshotStore = none) (k : String) :
    k ∈ cacheKeys c ↔ k ∈ c.store.map Prod.fst := by
  unfold cacheKeys
  rw [hs]
  dsimp only
  rw [List.Perm.mem_iff (List.mergeSort_perm _ _)]
  rw [mem_foldl_insertKey]
  simp

/-- C8: `DeleteBucketRange(prefix, mn, mx, nil)` removes exactly the values
with timestamps in `[mn, mx]` from every key sharing the prefix — the
surviving buffer is the deduplicated buffer restricted to timestamps outside
the range, so buffers appended out of order are handled — while other keys
are untouched; a key whose entry empties is removed from the store, so
`Keys()` no longer lists it; and the freed bytes leave the size accounting,
so `Size()` equals the bytes of exactly the remaining data.  The hypotheses
are the well-formedness facts every reachable cache satisfies: no
outstanding snapshot (as in the tests), association keys unique, accounting
in sync, and timestamps in `int64` range. -/
theorem c8_delete_bucket_range_exact (c : Cache) (p : String) (mn mx : Int)
    (hs : c.snapshotStore = none) (hss : c.snapshotSize = 0)
    (hnd : (c.store.map Prod.fst).Nodup)
    (hacc : c.cacheSize = storeBytes c.store)
    (hwf : ∀ kv ∈ c.store, ∀ v ∈ kv.2.values,
        int64Min ≤ v.unixnano ∧ v.unixnano ≤ int64Max) :
    (∀ k, storeFind (cacheDeleteBucketRange c p mn mx none).store k =
        match storeFind c.store k with
        | none => none
        | some e =>
            if strStartsWith p k then
              if (dedupe e.values).filter
                  (fun v => v.unixnano < mn ∨ mx < v.unixnano) = [] then none
              else some { e with values :=
                (dedupe e.values).filter (fun v => v.unixnano < mn ∨ mx < v.unixnano) }
            else some e) ∧
    (∀ k, k ∈ cacheKeys (cacheDeleteBucketRange c p mn mx none) ↔
        storeFind (cacheDeleteBucketRange c p mn mx none).store k ≠ none) ∧
    cacheSizeOf (cacheDeleteBucketRange c p mn mx none) =
      storeBytes (cacheDeleteBucketRange c p mn mx none).store := by
  have hstore : (cacheDeleteBucketRange c p mn mx none).store =
      (dbrStore p mn mx none c.store).1 := rfl
  have hnd' : ((dbrStore p mn mx none c.store).1.map Prod.fst).Nodup := by
    have : ∀ st : Store, (st.map Prod.fst).Nodup →
        (((dbrStore p mn mx none st).1).map Prod.fst).Nodup := by
      intro st
      induction st with
      | nil => intro h; exact h
      | cons kv rest ih =>
          intro h
          rw [List.map_cons, List.nodup_cons] at h
          obtain ⟨hnotin, hndr⟩ := h
          simp only [dbrStore]
          split
          · split
            · exact ih hndr
            · split
              · exact ih hndr
              · dsimp only
                rw [List.map_cons, List.nodup_cons]
                refine ⟨?_, ih hndr⟩
                intro hc
                rcases List.mem_map.mp hc with ⟨kv2, hkv2, hfst⟩
                have : storeFind (dbrStore p mn mx none rest).1 kv.1 ≠ none := by
                  intro hcc
                  exact ((storeFind_eq_none _ _).mp hcc)
                    (hfst ▸ List.mem_map_of_mem Prod.fst hkv2)
                have hnone : storeFind rest kv.1 = none :=
                  (storeFind_eq_none rest kv.1).mpr hnotin
                exact this (dbrStore_find_none p mn mx none rest kv.1 hnone)
          · dsimp only
            rw [List.map_cons, List.nodup_cons]
            refine ⟨?_, ih hndr⟩
            intro hc
            rcases List.mem_map.mp hc with ⟨kv2, hkv2, hfst⟩
            have : storeFind (dbrStore p mn mx none rest).1 kv.1 ≠ none := by
              intro hcc
              exact ((storeFind_eq_none _ _).mp hcc)
                (hfst ▸ List.mem_map_of_mem Prod.fst hkv2)
            have hnone : storeFind rest kv.1 = none :=
              (storeFind_eq_none rest kv.1).mpr hnotin
            exact this (dbrStore_find_none p mn mx none rest kv.1 hnone)
    exact this c.store hnd
  refine ⟨?_, ?_, ?_⟩
  · intro k
    rw [hstore, dbrStore_find p mn mx none c.store k hnd]
    cases hf : storeFind c.store k with
    | none => rfl
    | some e =>
        dsimp only
        have hand : (strStartsWith p k && predOk none k) = strStartsWith p k := by
          unfold predOk
          rw [Bool.and_true]
        rw [hand]
        by_cases hpre : strStartsWith p k
        · rw [if_pos hpre, if_pos hpre]
          by_cases hfull : mn = int64Min ∧ mx = int64Max
          · rw [if_pos hfull]
            have hnilf : (dedupe e.values).filter
                (fun v => v.unixnano < mn ∨ mx < v.unixnano) = [] := by
              refine List.filter_eq_nil_iff.mpr ?_
              intro v hv
              have hvmem : v ∈ e.values := mem_dedupe_mem _ _ hv
              have hkv : (k, e) ∈ c.store := storeFind_mem c.store k e hf
              have hw := hwf (k, e) hkv v hvmem
              simp only [decide_eq_true_eq, not_or, not_lt]
              omega
            rw [hnilf]
            simp
          · rw [if_neg hfull]
        · rw [if_neg hpre, if_neg hpre]
  · intro k
    have hs' : (cacheDeleteBucketRange c p mn mx none).snapshotStore = none := hs
    rw [mem_cacheKeys _ hs' k, hstore]
    constructor
    · intro h1 h2
      exact ((storeFind_eq_none _ k).mp h2) h1
    · intro h1
      by_contra h2
      exact h1 ((storeFind_eq_none _ k).mpr h2)
  · have hbytes := dbrStore_bytes p mn mx none c.store
    unfold cacheSizeOf
    rw [show (cacheDeleteBucketRange c p mn mx none).cacheSize =
          c.cacheSize - (dbrStore p mn mx none c.store).2 from rfl]
    rw [show (cacheDeleteBucketRange c p mn mx none).snapshotSize =
          c.snapshotSize from rfl]
    rw [hss, hacc, hstore]
    omega

/-- C8 witness: the `TestCache_DeleteBucketRange_NotSorted` scenario — the
key "foo" holds values appended out of timestamp order, the whole range
`[1, 3]` is deleted, and `Size()` equals the bytes of the (empty) remaining
store. -/
theorem c8_delete_bucket_range_exact_witness :
    cacheSizeOf (cacheDeleteBucketRange
        (cacheWriteMulti (newCache 144)
          [("foo", [⟨1, .float 1⟩, ⟨3, .float 3⟩, ⟨2, .float 2⟩])]).1
        "foo" 1 3 none) =
      storeBytes (cacheDeleteBucketRange
        (cacheWriteMulti (newCache 144)
          [("foo", [⟨1, .float 1⟩, ⟨3, .float 3⟩, ⟨2, .float 2⟩])]).1
        "foo" 1 3 none).store :=
  (c8_delete_bucket_range_exact
      (cacheWriteMulti (newCache 144)
        [("foo", [⟨1, .float 1⟩, ⟨3, .float 3⟩, ⟨2, .float 2⟩])]).1
      "foo" 1 3 (by decide) (by decide) (by decide) (by decide)
      (by decide)).2.2

theorem replayBatches_append_ok (l1 l2 : List (List (String × List Value)))
    (c : Cache) (h : (replayBatches c (l1 ++ l2)).2 = true) :
    (replayBatches c l1).2 = true := by
  induction l1 generalizing c with
  | nil => rfl
  | cons b rest ih =>
      rw [List.cons_append] at h
      simp only [replayBatches] at h ⊢
      cases herr : (cacheWriteMulti c b).2 with
      | some e =>
          rw [herr] at h
          dsimp only at h
          cases h
      | none =>
          rw [herr] at h
          dsimp only at h ⊢
          exact ih _ h

theorem replayBatches_append (l1 l2 : List (List (String × List Value)))
    (c : Cache) (h : (replayBatches c l1).2 = true) :
    replayBatches c (l1 ++ l2) = replayBatches (replayBatches c l1).1 l2 := by
  induction l1 generalizing c with
  | nil => rfl
  | cons b rest ih =>
      simp only [replayBatches] at h ⊢
      cases herr : (cacheWriteMulti c b).2 with
      | some e =>
          rw [herr] at h
          dsimp only at h
          cases h
      | none =>
          rw [herr] at h
          dsimp only at h ⊢
          exact ih _ h

theorem loadSegment_eq_replay (seg : Segment) (c : Cache)
    (h : (replayBatches c (segGood seg)).2 = true) :
    loadSegment c seg = ((replayBatches c (segGood seg)).1, none) := by
  induction seg generalizing c with
  | nil => rfl
  | cons r rest ih =>
      cases r with
      | corruptRec => rfl
      | writeRec b =>
          simp only [segGood, replayBatches] at h ⊢
          simp only [loadSegment]
          cases herr : (cacheWriteMulti c b).2 with
          | some e =>
              rw [herr] at h
              dsimp only at h
              cases h
          | none =>
              rw [herr] at h
              dsimp only at h ⊢
              rw [ih _ h]

/-- C9: with every well-formed record replayable through the normal write
path (the cache is large enough and types are consistent, as in the tests),
`CacheLoader.Load` over a list of WAL segments — one of which may be
truncated or end in a malformed record — equals the clean replay of exactly
the well-formed records preceding each segment's corruption, concatenated
in segment order, and it returns no error: every good record of a corrupted
segment's prefix and every record of every other segment lands in the
cache, and nothing else does. -/
theorem c9_loader_corruption_tolerant (c : Cache) (segs : List Segment)
    (h : (replayBatches c ((segs.map segGood).flatten)).2 = true) :
    loaderLoad c segs =
      ((replayBatches c ((segs.map segGood).flatten)).1, none) := by
  induction segs generalizing c with
  | nil => rfl
  | cons seg rest ih =>
      simp only [List.map_cons, List.flatten_cons] at h ⊢
      have h1 : (replayBatches c (segGood seg)).2 = true :=
        replayBatches_append_ok _ _ c h
      have happ := replayBatches_append (segGood seg) ((rest.map segGood).flatten) c h1
      rw [happ] at h ⊢
      simp only [loaderLoad]
      rw [loadSegment_eq_replay seg c h1]
      dsimp only
      exact ih _ h

/-- C9 witness: the loader reconstructs the clean replay of the valid
records of both segments without error, and the uncorrupted segment's
entries are present. -/
theorem c9_loader_corruption_tolerant_witness :
    loaderLoad (newCache 1024) c9segs =
      ((replayBatches (newCache 1024) ((c9segs.map segGood).flatten)).1, none) ∧
    cacheValues (loaderLoad (newCache 1024) c9segs).1 "qux" =
      [⟨1, .str "string"⟩] :=
  ⟨c9_loader_corruption_tolerant (newCache 1024) c9segs (by decide), by decide⟩

theorem dprCandidates_match (e : EngineM) (name : String) (mn mx : Int)
    (pred : KeyPred) (k : String)
    (h : k ∈ dprCandidates e name mn mx pred) :
    strStartsWith name k = true ∧ predOk pred k = true := by
  unfold dprCandidates at h
  rw [mem_foldl_insertKey] at h
  rcases h with h | h
  · cases h
  · rw [List.mem_append] at h
    rcases h with h | h
    · unfold dprTouched at h
      rw [List.mem_flatten] at h
      obtain ⟨l, hl, hkl⟩ := h
      rw [List.mem_map] at hl
      obtain ⟨f, _, hfl⟩ := hl
      subst hfl
      unfold fileTouchedKeys at hkl
      rw [List.mem_map] at hkl
      obtain ⟨kt, hkt, hk1⟩ := hkl
      rw [List.mem_filter] at hkt
      have hcond := hkt.2
      rw [Bool.and_eq_true, Bool.and_eq_true] at hcond
      subst hk1
      exact ⟨hcond.1.1, hcond.1.2⟩
    · unfold dprCacheCand at h
      rw [List.mem_filter] at h
      have hcond := h.2
      rw [Bool.and_eq_true] at hcond
      exact hcond

theorem sf_nodup_inj (sf : SeriesFileM) (h : (sf.map Prod.fst).Nodup)
    (a b : Nat × String) (ha : a ∈ sf) (hb : b ∈ sf) (hab : a.1 = b.1) : a = b := by
  induction sf with
  | nil => cases ha
  | cons hd tl ih =>
      rw [List.map_cons, List.nodup_cons] at h
      obtain ⟨hne, hndtl⟩ := h
      rcases List.mem_cons.mp ha with rfl | hatl
      · rcases List.mem_cons.mp hb with rfl | hbtl
        · rfl
        · exact absurd (hab ▸ List.mem_map_of_mem Prod.fst hbtl) hne
      · rcases List.mem_cons.mp hb with rfl | hbtl
        · exact absurd (hab ▸ List.mem_map_of_mem Prod.fst hatl) hne
        · exact ih hndtl hatl hbtl

theorem seriesIDLookup_some (sf : SeriesFileM) (skey : String) (sid : Nat)
    (h : seriesIDLookup sf skey = sid) (hnz : sid ≠ 0) :
    ∃ s ∈ sf, s.1 = sid ∧ s.2 = skey := by
  unfold seriesIDLookup at h
  cases hfd : sf.find? (fun p => p.2 == skey) with
  | none =>
      rw [hfd] at h
      simp at h
      exact absurd h.symm hnz
  | some pr =>
      rw [hfd] at h
      simp only [Option.map_some', Option.getD_some] at h
      refine ⟨pr, List.mem_of_find?_eq_some hfd, h, ?_⟩
      simpa using List.find?_some hfd

theorem slowPathDrop_spec (ks : List String) (idx : TagIndexM) (sf : SeriesFileM)
    (hnd : (sf.map Prod.fst).Nodup) :
    (∀ s ∈ sf, s ∉ (slowPathDrop (idx, sf) ks).2 → ∃ k ∈ ks, s.2 = seriesKeyOf k) ∧
    (∀ pr ∈ idx, pr ∉ (slowPathDrop (idx, sf) ks).1 →
      ∃ k ∈ ks, ∃ s ∈ sf, s.2 = seriesKeyOf k ∧ s.1 = pr.2) := by
  induction ks generalizing idx sf with
  | nil =>
      constructor
      · intro s hs hns
        exact absurd hs hns
      · intro pr hpr hnpr
        exact absurd hpr hnpr
  | cons k rest ih =>
      simp only [slowPathDrop]
      by_cases hz : seriesIDLookup sf (seriesKeyOf k) = 0
      · rw [if_pos hz]
        have ihr := ih idx sf hnd
        constructor
        · intro s hs hns
          obtain ⟨k2, hk2, he⟩ := ihr.1 s hs hns
          exact ⟨k2, List.mem_cons_of_mem k hk2, he⟩
        · intro pr hpr hnpr
          obtain ⟨k2, hk2, s, hs, he⟩ := ihr.2 pr hpr hnpr
          exact ⟨k2, List.mem_cons_of_mem k hk2, s, hs, he⟩
      · rw [if_neg hz]
        obtain ⟨p0, hp0, hp1, hp2⟩ :=
          seriesIDLookup_some sf (seriesKeyOf k) _ rfl hz
        have hnd' : ((deleteSeriesID sf (seriesIDLookup sf (seriesKeyOf k))).map
            Prod.fst).Nodup := by
          refine List.Nodup.sublist ?_ hnd
          exact (List.filter_sublist sf).map Prod.fst
        have ihr := ih (dropSeriesFromIndex idx (seriesIDLookup sf (seriesKeyOf k)))
          (deleteSeriesID sf (seriesIDLookup sf (seriesKeyOf k))) hnd'
        constructor
        · intro s hs hns
          by_cases hsid : s.1 = seriesIDLookup sf (seriesKeyOf k)
          · refine ⟨k, List.mem_cons_self k rest, ?_⟩
            have : s = p0 := sf_nodup_inj sf hnd s p0 hs hp0 (hsid.trans hp1.symm)
            rw [this, hp2]
          · have hs' : s ∈ deleteSeriesID sf (seriesIDLookup sf (seriesKeyOf k)) := by
              unfold deleteSeriesID
              rw [List.mem_filter]
              exact ⟨hs, by simpa using hsid⟩
            obtain ⟨k2, hk2, he⟩ := ihr.1 s hs' hns
            exact ⟨k2, List.mem_cons_of_mem k hk2, he⟩
        · intro pr hpr hnpr
          by_cases hsid : pr.2 = seriesIDLookup sf (seriesKeyOf k)
          · exact ⟨k, List.mem_cons_self k rest, p0, hp0, hp2,
              hp1.trans hsid.symm⟩
          · have hpr' : pr ∈ dropSeriesFromIndex idx (seriesIDLookup sf (seriesKeyOf k)) := by
              unfold dropSeriesFromIndex
              rw [List.mem_filter]
              exact ⟨hpr, by simpa using hsid⟩
            obtain ⟨k2, hk2, s, hs, he, he2⟩ := ihr.2 pr hpr' hnpr
            have hssub : s ∈ sf := by
              unfold deleteSeriesID at hs
              exact (List.mem_filter.mp hs).1
            exact ⟨k2, List.mem_cons_of_mem k hk2, s, hssub, he, he2⟩

theorem deletePrefixRange_slow_parts (e : EngineM) (name : String) (mn mx : Int)
    (pred : KeyPred)
    (hslow : ¬(mn = int64Min ∧ mx = int64Max ∧ pred.isNone = true)) :
    (deletePrefixRange e name mn mx pred).1.index =
        (if (dprDead e name mn mx pred).isEmpty then e.index
         else (slowPathDrop (e.index, e.sfile) (dprDead e name mn mx pred)).1) ∧
    (deletePrefixRange e name mn mx pred).1.sfile =
        (if (dprDead e name mn mx pred).isEmpty then e.sfile
         else (slowPathDrop (e.index, e.sfile) (dprDead e name mn mx pred)).2) := by
  unfold deletePrefixRange
  dsimp only
  split
  · exact ⟨rfl, rfl⟩
  · exact ⟨rfl, rfl⟩

/-- C3: a candidate key collected during the delete scans stays in the
possibly-dead set exactly when, after the file deletes and the cache
delete, it is absent from every on-disk file's remaining keys and absent
from the live cache — a candidate still present in a file during the file
re-scan, or still present in the cache during the cache re-scan, is pruned;
and on the non-full-drop path every series removed from the series catalog
or from the tag index corresponds to a key of the final possibly-dead set
(no index or catalog deletion is performed for pruned candidates).  Catalog
ids are assumed unique, as the series file guarantees. -/
theorem c3_prune_then_drop_only_dead (e : EngineM) (name : String) (mn mx : Int)
    (pred : KeyPred)
    (hslow : ¬(mn = int64Min ∧ mx = int64Max ∧ pred.isNone = true))
    (hids : (e.sfile.map Prod.fst).Nodup) :
    (∀ k, k ∈ dprDead e name mn mx pred ↔
        (k ∈ dprCandidates e name mn mx pred ∧
         (∀ f ∈ dprFilesAfter e name mn mx pred, k ∉ fileKeys f) ∧
         k ∉ (dprCacheAfter e name mn mx pred).store.map Prod.fst)) ∧
    (∀ s ∈ e.sfile, s ∉ (deletePrefixRange e name mn mx pred).1.sfile →
        ∃ k ∈ dprDead e name mn mx pred, s.2 = seriesKeyOf k) ∧
    (∀ pr ∈ e.index, pr ∉ (deletePrefixRange e name mn mx pred).1.index →
        ∃ k ∈ dprDead e name mn mx pred, ∃ s ∈ e.sfile,
          s.2 = seriesKeyOf k ∧ s.1 = pr.2) := by
  have hparts := deletePrefixRange_slow_parts e name mn mx pred hslow
  refine ⟨?_, ?_, ?_⟩
  · intro k
    unfold dprDead
    rw [List.mem_filter]
    constructor
    · rintro ⟨hc, hb⟩
      rw [Bool.and_eq_true, Bool.not_eq_true', Bool.not_eq_true'] at hb
      refine ⟨hc, ?_, ?_⟩
      · intro f hf hkf
        have hmatch := dprCandidates_match e name mn mx pred k hc
        have hpr : dprPrunedByFiles e name mn mx pred k = true := by
          unfold dprPrunedByFiles
          rw [List.any_eq_true]
          refine ⟨f, hf, ?_⟩
          rw [Bool.and_eq_true, Bool.and_eq_true]
          exact ⟨⟨List.elem_iff.mpr hkf, hmatch.1⟩, hmatch.2⟩
        rw [hpr] at hb
        cases hb.1
      · intro hkc
        have hmatch := dprCandidates_match e name mn mx pred k hc
        have hpr : dprPrunedByCache e name mn mx pred k = true := by
          unfold dprPrunedByCache
          rw [Bool.and_eq_true, Bool.and_eq_true]
          exact ⟨⟨List.elem_iff.mpr hkc, hmatch.1⟩, hmatch.2⟩
        rw [hpr] at hb
        cases hb.2
    · rintro ⟨hc, hfiles, hcache⟩
      refine ⟨hc, ?_⟩
      rw [Bool.and_eq_true, Bool.not_eq_true', Bool.not_eq_true']
      constructor
      · cases hq : dprPrunedByFiles e name mn mx pred k with
        | false => rfl
        | true =>
            unfold dprPrunedByFiles at hq
            rw [List.any_eq_true] at hq
            obtain ⟨f, hf, hcond⟩ := hq
            rw [Bool.and_eq_true, Bool.and_eq_true] at hcond
            exact absurd (List.elem_iff.mp hcond.1.1) (hfiles f hf)
      · cases hq : dprPrunedByCache e name mn mx pred k with
        | false => rfl
        | true =>
            unfold dprPrunedByCache at hq
            rw [Bool.and_eq_true, Bool.and_eq_true] at hq
            exact absurd (List.elem_iff.mp hq.1.1) hcache
  · intro s hs hns
    rw [hparts.2] at hns
    by_cases hde : (dprDead e name mn mx pred).isEmpty
    · rw [if_pos hde] at hns
      exact absurd hs hns
    · rw [if_neg hde] at hns
      exact (slowPathDrop_spec (dprDead e name mn mx pred) e.index e.sfile hids).1
        s hs hns
  · intro pr hpr hnpr
    rw [hparts.1] at hnpr
    by_cases hde : (dprDead e name mn mx pred).isEmpty
    · rw [if_pos hde] at hnpr
      exact absurd hpr hnpr
    · rw [if_neg hde] at hnpr
      exact (slowPathDrop_spec (dprDead e name mn mx pred) e.index e.sfile hids).2
        pr hpr hnpr

/-- C3 witness: on the concrete slow-path engine, the series (2,
"cpu,host=b") — whose data the delete removed everywhere — is gone from the
catalog, and (applying the theorem) its removal corresponds to a
finally-dead key. -/
theorem c3_prune_then_drop_only_dead_witness :
    ∃ k ∈ dprDead c3eng "cpu" 2 7 none, "cpu,host=b" = seriesKeyOf k :=
  (c3_prune_then_drop_only_dead c3eng "cpu" 2 7 none (by decide)
    (by decide)).2.1 (2, "cpu,host=b") (by decide) (by decide)

/-- C1 (evaluation of the code at the failing input): a full-range,
predicate-free `DeletePrefixRange` of the "cpu" measurement leaves a
non-empty possibly-dead set, so the fast path runs; the measurement's
series-id iterator yields ids 1 and 2; the call returns no error and drops
the measurement from the tag index in one call — but the series catalog is
returned UNCHANGED: the drain loop at src/unnamed/part_008 line 205 runs
its body only while `itr.Next()` returns a non-nil error (`err != nil`), so
on the normal path the collected id set stays empty and
`sfile.DeleteSeriesID` is never invoked, contradicting the claim (and
`TestEngine_DeleteBucket`, which expects the series cardinality to drop
from 3 to 2, and the function's own doc comment, which says it "removes all
index and series file data associated with the bucket"). -/
theorem c1_full_drop_leaves_series_catalog :
    dprDead c1eng "cpu" int64Min int64Max none ≠ [] ∧
    measurementSeriesIDs c1eng.index "cpu" = [1, 2] ∧
    (deletePrefixRange c1eng "cpu" int64Min int64Max none).2 = none ∧
    (deletePrefixRange c1eng "cpu" int64Min int64Max none).1.index = [("mem", 3)] ∧
    (deletePrefixRange c1eng "cpu" int64Min int64Max none).1.sfile = c1eng.sfile := by
  decide

/-- C4 witness at a concrete input: fresh cache, snapshot, one
post-snapshot write. -/
theorem c4_snapshot_merge_and_clear_witness :
    cacheValues (applyWrites (cacheSnapshot (newCache 512)).1
        [("foo", [⟨1, .float 2⟩])]).1 "foo" =
      dedupe (rawIn (newCache 512).store "foo" ++
        writtenTo (applyWrites (cacheSnapshot (newCache 512)).1
          [("foo", [⟨1, .float 2⟩])]).2 "foo") :=
  (c4_snapshot_merge_and_clear (newCache 512) "foo"
    [("foo", [⟨1, .float 2⟩])] rfl).1

/-- C10 witness at a concrete input: a write to "bar" never creates "foo". -/
theorem c10_unwritten_key_empty_witness :
    cacheValues (applyWrites (newCache 512) [("bar", [⟨1, .float 1⟩])]).1 "foo" = [] ∧
    cacheValues (cacheSnapshot
        (applyWrites (newCache 512) [("bar", [⟨1, .float 1⟩])]).1).1 "foo" = [] :=
  c10_unwritten_key_empty 512 "foo" [("bar", [⟨1, .float 1⟩])] (by decide)
